import Mathlib

/-!
# Verification of the dense-polynomial engine of `taodaling/rustcp`

This file gives a shallow embedding of `contest/src/poly.rs` — a formal power
series / polynomial arithmetic engine over a field with a pluggable
convolution strategy — and proves the testable properties stated in the
repository's specification.

Conventions of the embedding:

* Rust `Vec<T>` coefficient vectors become `List F` over a `Field F` with
  decidable equality (the source requires `Field + FromNumber` for every
  operation the properties below mention, and trimming compares against the
  additive identity).
* The external convolution capability is modelled as exact polynomial
  multiplication of coefficient sequences, which is precisely the interface
  contract the spec states for it.
* Fatal assertions (`should!`, `should_eq!`) and panicking slice accesses are
  modelled with `Option`: `none` is a panic.
* `toPoly : List F → Polynomial F` interprets a coefficient list as a
  polynomial; it is the semantic bridge used to state correctness.
-/

set_option linter.unusedSectionVars false

set_option autoImplicit false

namespace RustPoly

open Polynomial

variable {F : Type} [Field F] [DecidableEq F]

/-- Build the length-`n` list whose `i`-th entry is `g i` (a helper used to
translate Rust loops that fill a freshly allocated vector). -/
def mkL (n : Nat) (g : Nat → F) : List F :=
  (List.range n).map g

/-- Modelled from the spec: `poly_common::poly_trim` is not under `src/`; the
spec says trailing additive-identity coefficients are removed except that
coefficient index 0 is always retained (the zero polynomial is exactly `[0]`).
`trimAux` removes trailing zeros, possibly returning the empty list. -/
def trimAux : List F → List F
  | [] => []
  | a :: t => if trimAux t = [] ∧ a = 0 then [] else a :: trimAux t

/-- Modelled from the spec: `poly_common::poly_trim` (see `trimAux`). -/
def poly_trim (l : List F) : List F :=
  if trimAux l = [] then [0] else trimAux l

/-- Modelled from the spec: `poly_common::poly_extend` is not under `src/`;
per the spec's inverse algorithm it resizes a coefficient vector to exactly
`n` entries, truncating or zero-padding. -/
def poly_extend (l : List F) (n : Nat) : List F :=
  mkL n (fun i => l.getD i 0)

/-- Modelled from the spec: `poly_common::poly_modular` is not under `src/`;
it keeps the first `min n (length l)` coefficients (`mod x^n`). -/
def poly_modular (l : List F) (n : Nat) : List F :=
  l.take n

/-- Modelled from the spec: `poly_common::poly_length` is not under `src/`;
it returns the next convolution-friendly length, the smallest power of two
that is at least `m`. -/
def poly_length (m : Nat) : Nat :=
  2 ^ Nat.clog 2 m

/-- Modelled from the spec: the external `Convolution` capability is exact
(non-modular) polynomial multiplication of coefficient sequences, returning
`len a + len b - 1` coefficients, or a single zero element on empty input. -/
def conv (a b : List F) : List F :=
  if a = [] ∨ b = [] then [0]
  else mkL (a.length + b.length - 1)
    (fun k => ∑ i ∈ Finset.range (k + 1), a.getD i 0 * b.getD (k - i) 0)

/-- Modelled from the spec: `math::inverse_batch` is not under `src/`; given
nonzero field elements it returns their multiplicative inverses. -/
def inverse_batch (l : List F) : List F :=
  l.map (fun x => x⁻¹)

/-- Interpret a coefficient list (index `i` = coefficient of `x^i`) as a
polynomial. -/
noncomputable def toPoly : List F → Polynomial F
  | [] => 0
  | a :: t => C a + X * toPoly t

/-- A list is trimmed when it is `[0]` or is nonempty with a nonzero last
coefficient: the representation invariant of `Poly`. -/
def Trimmed (l : List F) : Prop :=
  l = [0] ∨ (l ≠ [] ∧ l.getLast? ≠ some 0)

instance (l : List F) : Decidable (Trimmed l) := by
  unfold Trimmed; infer_instance

/-- Truncation `mod x^n` at the polynomial level. -/
noncomputable def truncP (n : Nat) (p : Polynomial F) : Polynomial F :=
  toPoly (mkL n p.coeff)

/-- The canonical trimmed representative of a polynomial. -/
noncomputable def repOf (p : Polynomial F) : List F :=
  mkL (p.natDegree + 1) p.coeff

end RustPoly

/-- The dense polynomial container of `poly.rs`: a coefficient vector
(`self.0 : Vec<T>`), coefficient `i` belonging to `x^i`. -/
structure RustPoly.Poly (F : Type) [Field F] [DecidableEq F] where
  coeffs : List F

instance {F : Type} [Field F] [DecidableEq F] : DecidableEq (RustPoly.Poly F) :=
  fun a b =>
    decidable_of_iff (a.coeffs = b.coeffs)
      (by cases a; cases b; simp)

namespace RustPoly

namespace Poly

open Polynomial

variable {F : Type} [Field F] [DecidableEq F]

/-- `Poly::new`: constructs and trims. -/
def new (l : List F) : Poly F := ⟨poly_trim l⟩

/-- `Poly::zero`. -/
def zero : Poly F := new [0]

/-- `Poly::one`. -/
def one : Poly F := new [1]

/-- `Poly::default` (the `Default` impl). -/
def default : Poly F := new [0]

/-- `Poly::rank`: coefficient-vector length minus one. -/
def rank (p : Poly F) : Nat := p.coeffs.length - 1

/-- `Poly::is_zero`. -/
def is_zero (p : Poly F) : Prop := p.coeffs.length = 1 ∧ p.coeffs.getD 0 0 = 0

instance (p : Poly F) : Decidable p.is_zero := by
  unfold is_zero; infer_instance

/-- `Add for Poly`: extend to the longer length, add coefficientwise, trim. -/
def add (a b : Poly F) : Poly F :=
  new (mkL (max a.coeffs.length b.coeffs.length)
    (fun i => a.coeffs.getD i 0 + b.coeffs.getD i 0))

/-- `Sub for Poly`: extend to the longer length, subtract coefficientwise, trim. -/
def sub (a b : Poly F) : Poly F :=
  new (mkL (max a.coeffs.length b.coeffs.length)
    (fun i => a.coeffs.getD i 0 - b.coeffs.getD i 0))

/-- `Mul for Poly`: convolution of the full coefficient vectors, then trim. -/
def mul (a b : Poly F) : Poly F := new (conv a.coeffs b.coeffs)

instance : Add (Poly F) := ⟨add⟩

instance : Sub (Poly F) := ⟨sub⟩

instance : Mul (Poly F) := ⟨mul⟩

/-- `Poly::modular`: `self mod x^n`. -/
def modular (p : Poly F) (n : Nat) : Poly F := new (poly_modular p.coeffs n)

/-- `Poly::pow2`: squaring through the convolution capability. -/
def pow2 (p : Poly F) : Poly F := new (conv p.coeffs p.coeffs)

/-- `Poly::right_shift`: multiply by `x^n` (prepend `n` zeros), zero stays zero. -/
def right_shift (p : Poly F) (n : Nat) : Poly F :=
  if p.is_zero then zero
  else new (mkL (n + p.coeffs.length)
    (fun i => if i < n then 0 else p.coeffs.getD (i - n) 0))

/-- `Poly::left_shift`: `self.0[n..]` panics (`none`) when `n` exceeds the
vector length, otherwise drops the lowest `n` coefficients and trims. -/
def left_shift (p : Poly F) (n : Nat) : Option (Poly F) :=
  if n ≤ p.coeffs.length then some (new (p.coeffs.drop n)) else none

/-- `Poly::differential`: coefficient `i-1` of the result is `p[i] * i`. -/
def differential (p : Poly F) : Poly F :=
  new (mkL (p.coeffs.length - 1)
    (fun j => p.coeffs.getD (j + 1) 0 * ((j + 1 : Nat) : F)))

/-- `Poly::integral`: coefficient `i+1` of the result is `p[i] / (i+1)`,
the divisions produced by the batched-inverse utility. -/
def integral (p : Poly F) : Poly F :=
  let inv := inverse_batch (mkL (p.rank + 1) (fun i => ((i + 1 : Nat) : F)))
  new (mkL (p.rank + 2)
    (fun j => if j = 0 then 0 else inv.getD (j - 1) 0 * p.coeffs.getD (j - 1) 0))

/-- `PolyInverse::inverse_internal` (Newton's iteration).  The Rust original
recurses forever on an empty slice; that unreachable branch is mapped to `[]`. -/
def inverse_internal (p : List F) : List F :=
  if p.length = 1 then [1 / p.getD 0 0]
  else if p.length = 0 then []
  else
    let m := p.length
    let prev_mod := (m + 1) / 2
    let proper_len := poly_length m
    let C0 := poly_extend (inverse_internal (p.take prev_mod)) proper_len
    let A := poly_extend p proper_len
    let AC0 := poly_extend (conv A C0) m
    let AC1 := AC0.map (fun x => 0 - x)
    let AC2 := match AC1 with
      | [] => []
      | a :: t => (a + 2) :: t
    poly_extend (conv C0 AC2) m
termination_by p.length
decreasing_by
  simp only [List.length_take]
  omega

/-- `PolyInverse::inverse`. -/
def conv_inverse (a : List F) (n : Nat) : List F :=
  poly_trim (inverse_internal (poly_extend a n))

/-- `Poly::inverse`: precision 0 yields the zero polynomial by convention. -/
def inverse (p : Poly F) (n : Nat) : Poly F :=
  if n = 0 then zero else new (conv_inverse p.coeffs n)

/-- `Div for Poly`: fast division by the reversed-polynomial inverse trick. -/
def div (a b : Poly F) : Poly F :=
  if a.coeffs.length < b.coeffs.length then default
  else
    let ar := a.coeffs.reverse
    let br := b.coeffs.reverse
    let c_rank := ar.length - br.length
    let proper_len := poly_length (c_rank * 2 + 1)
    let at_ := poly_modular ar proper_len
    let bt := poly_modular br proper_len
    let c := conv_inverse bt (c_rank + 1)
    let prod := poly_extend (conv at_ c) (c_rank + 1)
    new prod.reverse

instance : Div (Poly F) := ⟨div⟩

/-- `Poly::divider_and_remainder`. -/
def divider_and_remainder (a b : Poly F) : Poly F × Poly F :=
  (a / b, a - (a / b) * b)

/-- `Rem for Poly`. -/
def rem (a b : Poly F) : Poly F := (divider_and_remainder a b).2

instance : Mod (Poly F) := ⟨rem⟩

/-- `Poly::fast_div`: division against a divisor with a precomputed inverse
of its reversal. -/
def fast_div (a b binv : Poly F) : Poly F :=
  if a.coeffs.length < b.coeffs.length then default
  else
    let ar := a.coeffs.reverse
    let c_rank := ar.length - b.coeffs.length
    let proper_len := poly_length (c_rank * 2 + 1)
    let at_ := poly_modular ar proper_len
    let c := poly_modular binv.coeffs (c_rank + 1)
    let prod := poly_extend (conv at_ c) (c_rank + 1)
    new prod.reverse

/-- `Poly::fast_rem`; the `should!(res.rank() < rank)` assertion failure is a
panic, modelled as `none`. -/
def fast_rem (a b binv : Poly F) : Option (Poly F) :=
  let d := fast_div a b binv
  let res := a - b * d
  if res.rank < a.rank then some res else none

/-- `Poly::downgrade_mod_internal`; the `should!(ans.rank() < self.rank())`
assertion failure is a panic, modelled as `none`. -/
def downgrade_mod_internal (m : Poly F) (bits : List Nat) (inv : Poly F) :
    Option (Poly F) :=
  match bits with
  | [] => some one
  | bit :: rest => do
    let ans ← downgrade_mod_internal m rest inv
    if ans.rank < m.rank then
      let a2 := ans.pow2
      let a3 := if bit = 1 then a2.right_shift 1 else a2
      if a3.rank < m.rank then some a3 else fast_rem a3 m inv
    else none

/-- `Poly::downgrade_mod`: a constant modulus yields zero; otherwise the
inverse of the reversed modulus is precomputed to `2*(rank-1)+2` terms. -/
def downgrade_mod (m : Poly F) (bits : List Nat) : Option (Poly F) :=
  if m.rank = 0 then some zero
  else
    let inv := (new m.coeffs.reverse).inverse ((m.rank - 1) * 2 + 1 + 1)
    downgrade_mod_internal m bits inv

/-- `Poly::ln`; the `should_eq!(self.0[0], T::one())` assertion failure is a
panic, modelled as `none`. -/
def ln (p : Poly F) (n : Nat) : Option (Poly F) :=
  if p.coeffs.getD 0 0 = 1 then
    let diff := p.differential.modular n
    let inv := p.inverse n
    let prod := (diff * inv).modular n
    some (prod.integral.modular n)
  else none

/-- `Poly::exp0`, the doubling recursion behind `exp`; the Rust original
recurses forever at `n = 0` (unreachable from `exp`), mapped to `none`. -/
def exp0 (p : Poly F) (n : Nat) : Option (Poly F) :=
  match n with
  | 0 => none
  | 1 => some one
  | k + 2 => do
    let ans ← exp0 p ((k + 2 + 1) / 2)
    let l ← ans.ln (k + 2)
    let d := p.modular (k + 2) - l
    let d2 : Poly F := ⟨match d.coeffs with
      | [] => []
      | a :: t => (a + 1) :: t⟩
    some ((ans * d2).modular (k + 2))
termination_by n
decreasing_by omega

/-- `Poly::exp`. -/
def exp (p : Poly F) (n : Nat) : Option (Poly F) :=
  if n = 0 then some zero else (p.modular n).exp0 n

/-- `Poly::batch_mul`, with an explicit recursion-depth fuel: the Rust
original recurses on the two halves of the slice with no base case for the
empty slice, so exhausted fuel (`none`) models non-termination. -/
def batch_mul (fuel : Nat) (polys : List (Poly F)) : Option (Poly F) :=
  match fuel with
  | 0 => none
  | fuel + 1 =>
    if polys.length = 1 then some (polys.headD default)
    else do
      let a ← batch_mul fuel (polys.take (polys.length / 2))
      let b ← batch_mul fuel (polys.drop (polys.length / 2))
      some (a * b)

/-- The contribution of one produced bit: only the value `1` multiplies by `x`
(the source tests `bit == 1`). -/
def bitVal (b : Nat) : Nat := if b = 1 then 1 else 0

/-- The exponent actually computed by `downgrade_mod`: the first bit the
iterator yields is the least significant one. -/
def lsbVal : List Nat → Nat
  | [] => 0
  | b :: rest => bitVal b + 2 * lsbVal rest

/-- The exponent as the spec reads the bit sequence: most-significant bit
first. -/
def msbVal (bits : List Nat) : Nat :=
  bits.foldl (fun a b => 2 * a + bitVal b) 0

end Poly

end RustPoly

namespace RustPoly

open Polynomial

variable {F : Type} [Field F] [DecidableEq F]

theorem getD_mk (n : Nat) (g : Nat → F) (i : Nat) :
    (mkL n g).getD i 0 = if i < n then g i else 0 := by
  simp only [mkL, List.getD_eq_getElem?_getD, List.getElem?_map]
  by_cases h : i < n
  · simp [List.getElem?_range h, h]
  · rw [List.getElem?_eq_none (by simpa using Nat.le_of_not_lt h)]
    simp [h]

theorem length_mk (n : Nat) (g : Nat → F) : (mkL n g).length = n := by
  simp [mkL]

theorem coeff_toPoly (l : List F) (n : Nat) : (toPoly l).coeff n = l.getD n 0 := by
  induction l generalizing n with
  | nil => simp [toPoly]
  | cons a t ih =>
    cases n with
    | zero => simp [toPoly, mul_coeff_zero]
    | succ m => simp [toPoly, coeff_X_mul, ih]

theorem toPoly_eq_of_getD {l₁ l₂ : List F} (h : ∀ i, l₁.getD i 0 = l₂.getD i 0) :
    toPoly l₁ = toPoly l₂ :=
  Polynomial.ext fun i => by rw [coeff_toPoly, coeff_toPoly, h]

theorem trimAux_eq_nil {l : List F} (h : trimAux l = []) : ∀ x ∈ l, x = 0 := by
  induction l with
  | nil => simp
  | cons a t ih =>
    rw [trimAux] at h
    by_cases hc : trimAux t = [] ∧ a = 0
    · intro x hx
      rcases List.mem_cons.1 hx with rfl | hx
      · exact hc.2
      · exact ih hc.1 x hx
    · simp [hc] at h

theorem getD_trimAux (l : List F) (i : Nat) : (trimAux l).getD i 0 = l.getD i 0 := by
  induction l generalizing i with
  | nil => rfl
  | cons a t ih =>
    rw [trimAux]
    by_cases hc : trimAux t = [] ∧ a = 0
    · rw [if_pos hc]
      cases i with
      | zero => simp [hc.2]
      | succ j =>
        simp only [List.getD_nil, List.getD_cons_succ]
        rcases Nat.lt_or_ge j t.length with hj | hj
        · have hmem : t.getD j 0 ∈ t := by
            rw [List.getD_eq_getElem t 0 hj]
            exact List.getElem_mem hj
          exact (trimAux_eq_nil hc.1 _ hmem).symm
        · rw [List.getD_eq_default _ _ hj]
    · rw [if_neg hc]
      cases i with
      | zero => rfl
      | succ j => rw [List.getD_cons_succ, List.getD_cons_succ]; exact ih j

theorem toPoly_trimAux (l : List F) : toPoly (trimAux l) = toPoly l :=
  toPoly_eq_of_getD (getD_trimAux l)

theorem toPoly_poly_trim (l : List F) : toPoly (poly_trim l) = toPoly l := by
  rw [poly_trim]
  by_cases h : trimAux l = []
  · rw [if_pos h, ← toPoly_trimAux l, h]
    simp [toPoly]
  · rw [if_neg h, toPoly_trimAux]

theorem getLast?_trimAux (l : List F) :
    trimAux l = [] ∨ (trimAux l).getLast? ≠ some 0 := by
  induction l with
  | nil => exact Or.inl rfl
  | cons a t ih =>
    rw [trimAux]
    by_cases hc : trimAux t = [] ∧ a = 0
    · exact Or.inl (if_pos hc)
    · rw [if_neg hc]
      refine Or.inr ?_
      by_cases hnil : trimAux t = []
      · rw [hnil]
        have ha : a ≠ 0 := fun h0 => hc ⟨hnil, h0⟩
        simpa using ha
      · rcases ih with h0 | hlast
        · exact absurd h0 hnil
        · obtain ⟨b, t', heq⟩ := List.exists_cons_of_ne_nil hnil
          rw [heq] at hlast ⊢
          rwa [List.getLast?_cons_cons]

theorem trimmed_poly_trim (l : List F) : Trimmed (poly_trim l) := by
  rw [poly_trim]
  by_cases h : trimAux l = []
  · rw [if_pos h]; exact Or.inl rfl
  · rw [if_neg h]
    rcases getLast?_trimAux l with h0 | h0
    · exact absurd h0 h
    · exact Or.inr ⟨h, h0⟩

theorem poly_trim_ne_nil (l : List F) : poly_trim l ≠ [] := by
  rcases trimmed_poly_trim l with h | h
  · simp [h]
  · exact h.1

/-- Trimmed lists are uniquely determined by the polynomial they represent. -/
theorem trimmed_eq_of_toPoly_eq {l₁ l₂ : List F} (h₁ : Trimmed l₁) (h₂ : Trimmed l₂)
    (h : toPoly l₁ = toPoly l₂) : l₁ = l₂ := by
  have hgetD : ∀ i, l₁.getD i 0 = l₂.getD i 0 := fun i => by
    rw [← coeff_toPoly, ← coeff_toPoly, h]
  -- a trimmed list with all entries ≥ its length zero in the other is forced
  have key : ∀ l₁ l₂ : List F, Trimmed l₁ → Trimmed l₂ →
      (∀ i, l₁.getD i 0 = l₂.getD i 0) → l₁.length ≤ l₂.length := by
    intro l₁ l₂ h₁ h₂ hg
    by_contra hlt
    push_neg at hlt
    rcases h₁ with rfl | ⟨hne, hlast⟩
    · rcases h₂ with rfl | ⟨hne₂, _⟩
      · simp at hlt
      · have h1 : 1 ≤ l₂.length := List.length_pos.2 hne₂
        have h2 : l₂.length < 1 := by simpa using hlt
        omega
    · -- last entry of l₁ sits at an index ≥ length of l₂, so it is 0
      have hpos : 0 < l₁.length := List.length_pos.2 hne
      have hidx : l₂.length ≤ l₁.length - 1 := by omega
      have hz : l₂.getD (l₁.length - 1) 0 = 0 := List.getD_eq_default _ _ hidx
      have hl : l₁.getD (l₁.length - 1) 0 = l₁.getLast hne := by
        rw [List.getLast_eq_getElem]
        exact List.getD_eq_getElem l₁ 0 (by omega)
      apply hlast
      rw [List.getLast?_eq_getLast l₁ hne, ← hl, hg, hz]
  have hlen : l₁.length = l₂.length :=
    Nat.le_antisymm (key l₁ l₂ h₁ h₂ hgetD) (key l₂ l₁ h₂ h₁ fun i => (hgetD i).symm)
  apply List.ext_getElem hlen
  intro i hi₁ hi₂
  have := hgetD i
  rwa [List.getD_eq_getElem l₁ 0 hi₁, List.getD_eq_getElem l₂ 0 hi₂] at this

theorem coeff_truncP (n : Nat) (p : Polynomial F) (i : Nat) :
    (truncP n p).coeff i = if i < n then p.coeff i else 0 := by
  rw [truncP, coeff_toPoly, getD_mk]

theorem toPoly_take (l : List F) (n : Nat) : toPoly (l.take n) = truncP n (toPoly l) := by
  apply Polynomial.ext
  intro i
  rw [coeff_toPoly, coeff_truncP, coeff_toPoly]
  by_cases h : i < n
  · rw [if_pos h, List.getD_eq_getElem?_getD, List.getD_eq_getElem?_getD,
      List.getElem?_take, if_pos h]
  · rw [if_neg h, List.getD_eq_default]
    rw [List.length_take]
    exact le_trans (Nat.min_le_left _ _) (Nat.le_of_not_lt h)

theorem toPoly_poly_extend (l : List F) (n : Nat) :
    toPoly (poly_extend l n) = truncP n (toPoly l) := by
  apply Polynomial.ext
  intro i
  rw [poly_extend, coeff_toPoly, getD_mk, coeff_truncP, coeff_toPoly]

theorem truncP_eq_of_dvd {n : Nat} {p q : Polynomial F} (h : X ^ n ∣ p - q) :
    truncP n p = truncP n q := by
  apply Polynomial.ext
  intro i
  rw [coeff_truncP, coeff_truncP]
  by_cases hi : i < n
  · rw [if_pos hi, if_pos hi]
    have := (X_pow_dvd_iff.1 h) i hi
    rw [Polynomial.coeff_sub] at this
    exact sub_eq_zero.1 this
  · rw [if_neg hi, if_neg hi]

theorem dvd_sub_truncP (n : Nat) (p : Polynomial F) : X ^ n ∣ p - truncP n p := by
  rw [X_pow_dvd_iff]
  intro d hd
  rw [Polynomial.coeff_sub, coeff_truncP, if_pos hd, sub_self]

theorem dvd_of_truncP_eq {n : Nat} {p q : Polynomial F} (h : truncP n p = truncP n q) :
    X ^ n ∣ p - q := by
  rw [X_pow_dvd_iff]
  intro d hd
  have := congrArg (fun r => Polynomial.coeff r d) h
  simp only [coeff_truncP, if_pos hd] at this
  rw [Polynomial.coeff_sub, this, sub_self]

theorem truncP_truncP {m n : Nat} (h : m ≤ n) (p : Polynomial F) :
    truncP m (truncP n p) = truncP m p := by
  apply Polynomial.ext
  intro i
  simp only [coeff_truncP]
  by_cases hi : i < m
  · rw [if_pos hi, if_pos hi, if_pos (lt_of_lt_of_le hi h)]
  · rw [if_neg hi, if_neg hi]

theorem truncP_eq_self {n : Nat} {p : Polynomial F} (h : p.natDegree < n) :
    truncP n p = p := by
  apply Polynomial.ext
  intro i
  rw [coeff_truncP]
  by_cases hi : i < n
  · rw [if_pos hi]
  · rw [if_neg hi, eq_comm]
    exact Polynomial.coeff_eq_zero_of_natDegree_lt (lt_of_lt_of_le h (Nat.le_of_not_lt hi))

theorem truncP_one {n : Nat} (h : 1 ≤ n) : truncP n (1 : Polynomial F) = 1 :=
  truncP_eq_self (by simpa using h)

/-- The constant term of the represented polynomial is the first coefficient. -/
theorem coeff_zero_toPoly (l : List F) : (toPoly l).coeff 0 = l.getD 0 0 :=
  coeff_toPoly l 0

theorem toPoly_repOf (p : Polynomial F) : toPoly (repOf p) = p := by
  apply Polynomial.ext
  intro i
  rw [repOf, coeff_toPoly, getD_mk]
  by_cases hi : i < p.natDegree + 1
  · rw [if_pos hi]
  · rw [if_neg hi, eq_comm]
    exact Polynomial.coeff_eq_zero_of_natDegree_lt (by omega)

theorem getLast?_mk {n : Nat} (g : Nat → F) (h : 1 ≤ n) :
    (mkL n g).getLast? = some (g (n - 1)) := by
  rw [List.getLast?_eq_getElem?, length_mk]
  have : n - 1 < n := by omega
  simp only [mkL, List.getElem?_map, List.getElem?_range this, Option.map_some']

theorem trimmed_repOf (p : Polynomial F) : Trimmed (repOf p) := by
  by_cases hp : p = 0
  · left
    subst hp
    simp [repOf, mkL, List.range_succ]
  · right
    constructor
    · intro h
      have := congrArg List.length h
      rw [repOf, length_mk] at this
      simp at this
    · rw [repOf, getLast?_mk _ (by omega)]
      simp only [Nat.add_sub_cancel, Ne, Option.some.injEq]
      rw [← Polynomial.leadingCoeff]
      exact Polynomial.leadingCoeff_ne_zero.2 hp

theorem repOf_toPoly {l : List F} (h : Trimmed l) : repOf (toPoly l) = l :=
  trimmed_eq_of_toPoly_eq (trimmed_repOf _) h (toPoly_repOf _)

theorem length_repOf (p : Polynomial F) : (repOf p).length = p.natDegree + 1 :=
  length_mk _ _

theorem toPoly_conv (a b : List F) : toPoly (conv a b) = toPoly a * toPoly b := by
  rcases em (a = [] ∨ b = []) with h | h
  · have hz : toPoly a * toPoly b = 0 := by
      rcases h with rfl | rfl
      · simp [toPoly]
      · simp [toPoly]
    rw [conv, if_pos h, hz]
    simp [toPoly]
  · rw [conv, if_neg h]
    push_neg at h
    apply Polynomial.ext
    intro k
    rw [coeff_toPoly, getD_mk, Polynomial.coeff_mul,
      Finset.Nat.sum_antidiagonal_eq_sum_range_succ (fun i j => (toPoly a).coeff i * (toPoly b).coeff j)]
    by_cases hk : k < a.length + b.length - 1
    · rw [if_pos hk]
      exact Finset.sum_congr rfl fun i _ => by rw [coeff_toPoly, coeff_toPoly]
    · rw [if_neg hk]
      symm
      apply Finset.sum_eq_zero
      intro i hi
      rw [Finset.mem_range] at hi
      rw [coeff_toPoly, coeff_toPoly]
      have hlen : 1 ≤ a.length ∧ 1 ≤ b.length :=
        ⟨List.length_pos.2 h.1, List.length_pos.2 h.2⟩
      by_cases ha : i < a.length
      · have : b.length ≤ k - i := by omega
        rw [List.getD_eq_default b _ this, mul_zero]
      · rw [List.getD_eq_default a _ (Nat.le_of_not_lt ha), zero_mul]


end RustPoly

namespace RustPoly

namespace Poly

open Polynomial

variable {F : Type} [Field F] [DecidableEq F]

theorem coeffs_new (l : List F) : (new l).coeffs = poly_trim l := rfl

theorem toPoly_new (l : List F) : toPoly (new l).coeffs = toPoly l :=
  toPoly_poly_trim l

theorem trimmed_new (l : List F) : Trimmed (new l).coeffs :=
  trimmed_poly_trim l

theorem getD_poly_trim (l : List F) (i : Nat) :
    (poly_trim l).getD i 0 = l.getD i 0 := by
  rw [← coeff_toPoly, ← coeff_toPoly, toPoly_poly_trim]

theorem length_trimmed {l : List F} (h : Trimmed l) :
    l.length = (toPoly l).natDegree + 1 := by
  conv_lhs => rw [← repOf_toPoly h]
  exact length_repOf _

theorem rank_new (l : List F) : (new l).rank = (toPoly l).natDegree := by
  rw [rank, coeffs_new, length_trimmed (trimmed_poly_trim l), toPoly_poly_trim]
  rfl

theorem new_eq_new_iff {l₁ l₂ : List F} : new (F := F) l₁ = new l₂ ↔ toPoly l₁ = toPoly l₂ := by
  constructor
  · intro h
    have := congrArg (fun q : Poly F => toPoly q.coeffs) h
    simpa [toPoly_new] using this
  · intro h
    have := trimmed_eq_of_toPoly_eq (trimmed_poly_trim l₁) (trimmed_poly_trim l₂)
      (by rwa [toPoly_poly_trim, toPoly_poly_trim])
    show Poly.mk _ = Poly.mk _
    rw [poly_trim, poly_trim] at this ⊢
    rw [this]

theorem toPoly_zero_poly : toPoly (zero (F := F)).coeffs = 0 := by
  rw [zero, toPoly_new]
  simp [toPoly]

theorem toPoly_one_poly : toPoly (one (F := F)).coeffs = 1 := by
  rw [one, toPoly_new]
  simp [toPoly]

theorem toPoly_add (a b : Poly F) :
    toPoly (a + b).coeffs = toPoly a.coeffs + toPoly b.coeffs := by
  show toPoly (add a b).coeffs = _
  rw [add, toPoly_new]
  apply Polynomial.ext
  intro i
  rw [coeff_toPoly, getD_mk, Polynomial.coeff_add, coeff_toPoly, coeff_toPoly]
  by_cases h : i < max a.coeffs.length b.coeffs.length
  · rw [if_pos h]
  · rw [if_neg h]
    push_neg at h
    rw [List.getD_eq_default _ _ (le_trans (le_max_left _ _) h),
      List.getD_eq_default _ _ (le_trans (le_max_right _ _) h), add_zero]

theorem toPoly_sub (a b : Poly F) :
    toPoly (a - b).coeffs = toPoly a.coeffs - toPoly b.coeffs := by
  show toPoly (sub a b).coeffs = _
  rw [sub, toPoly_new]
  apply Polynomial.ext
  intro i
  rw [coeff_toPoly, getD_mk, Polynomial.coeff_sub, coeff_toPoly, coeff_toPoly]
  by_cases h : i < max a.coeffs.length b.coeffs.length
  · rw [if_pos h]
  · rw [if_neg h]
    push_neg at h
    rw [List.getD_eq_default _ _ (le_trans (le_max_left _ _) h),
      List.getD_eq_default _ _ (le_trans (le_max_right _ _) h), sub_zero]

theorem toPoly_mul (a b : Poly F) :
    toPoly (a * b).coeffs = toPoly a.coeffs * toPoly b.coeffs := by
  show toPoly (mul a b).coeffs = _
  rw [mul, toPoly_new, toPoly_conv]

theorem toPoly_pow2 (p : Poly F) :
    toPoly p.pow2.coeffs = toPoly p.coeffs * toPoly p.coeffs := by
  rw [pow2, toPoly_new, toPoly_conv]

theorem toPoly_modular (p : Poly F) (n : Nat) :
    toPoly (p.modular n).coeffs = truncP n (toPoly p.coeffs) := by
  rw [modular, toPoly_new, poly_modular, toPoly_take]

theorem is_zero_iff {p : Poly F} : p.is_zero ↔ p.coeffs = [0] := by
  constructor
  · rintro ⟨hlen, hhead⟩
    match p, hlen with
    | ⟨[a]⟩, _ =>
      simp only [List.getD_cons_zero] at hhead
      rw [hhead]
  · intro h
    rw [is_zero, h]
    exact ⟨rfl, rfl⟩

theorem toPoly_right_shift (p : Poly F) (n : Nat) :
    toPoly (p.right_shift n).coeffs = X ^ n * toPoly p.coeffs := by
  rw [right_shift]
  by_cases hz : p.is_zero
  · rw [if_pos hz, is_zero_iff.1 hz, toPoly_zero_poly]
    simp [toPoly]
  · rw [if_neg hz, toPoly_new]
    apply Polynomial.ext
    intro i
    rw [coeff_toPoly]
    simp only [getD_mk]
    by_cases hn : i < n
    · rw [if_pos (by omega : i < n + p.coeffs.length), if_pos hn, eq_comm]
      exact X_pow_dvd_iff.1 ⟨toPoly p.coeffs, rfl⟩ i hn
    · have hi : ∃ d, i = d + n := ⟨i - n, by omega⟩
      obtain ⟨d, rfl⟩ := hi
      rw [Polynomial.coeff_X_pow_mul, coeff_toPoly]
      by_cases hd : d < p.coeffs.length
      · rw [if_pos (by omega), if_neg hn, Nat.add_sub_cancel]
      · rw [if_neg (by omega), List.getD_eq_default _ _ (by omega)]

theorem toPoly_differential (p : Poly F) :
    toPoly p.differential.coeffs = derivative (toPoly p.coeffs) := by
  rw [differential, toPoly_new]
  apply Polynomial.ext
  intro j
  rw [coeff_toPoly, getD_mk, Polynomial.coeff_derivative, coeff_toPoly]
  by_cases h : j < p.coeffs.length - 1
  · rw [if_pos h]
    push_cast
    ring
  · rw [if_neg h, List.getD_eq_default _ _ (by omega), zero_mul]

theorem coeff_integral (p : Poly F) (j : Nat) :
    (toPoly p.integral.coeffs).coeff j =
      if j = 0 then 0 else ((j : F))⁻¹ * (toPoly p.coeffs).coeff (j - 1) := by
  rw [integral, toPoly_new, coeff_toPoly, coeff_toPoly]
  simp only [getD_mk]
  by_cases h0 : j = 0
  · subst h0
    simp
  · simp only [if_neg h0]
    by_cases h : j < p.rank + 2
    · rw [if_pos h]
      have hj1 : j - 1 < p.rank + 1 := by omega
      have hib : (inverse_batch (mkL (p.rank + 1) (fun i => ((i + 1 : Nat) : F)))).getD (j - 1) 0
          = ((j : F))⁻¹ := by
        rw [inverse_batch, mkL, List.map_map, ← mkL]
        simp only [getD_mk, if_pos hj1, Function.comp_apply]
        have hj : j - 1 + 1 = j := by omega
        rw [hj]
      rw [hib]
    · rw [if_neg h]
      have hlen : p.coeffs.length ≤ j - 1 := by
        simp only [rank] at h
        omega
      rw [List.getD_eq_default _ _ hlen, mul_zero]

theorem derivative_integral [CharZero F] (p : Poly F) :
    derivative (toPoly p.integral.coeffs) = toPoly p.coeffs := by
  apply Polynomial.ext
  intro n
  rw [Polynomial.coeff_derivative, coeff_integral]
  rw [if_neg (Nat.succ_ne_zero n), Nat.add_sub_cancel]
  have hne : ((n : F) + 1) ≠ 0 := by
    have h1 : ((n + 1 : Nat) : F) ≠ 0 := Nat.cast_ne_zero.2 (Nat.succ_ne_zero n)
    push_cast at h1
    exact h1
  have hc : ((n + 1 : Nat) : F) = (n : F) + 1 := by push_cast; ring
  rw [hc, mul_comm ((n : F) + 1)⁻¹, mul_assoc, inv_mul_cancel₀ hne, mul_one]

theorem coeff_zero_integral (p : Poly F) : (toPoly p.integral.coeffs).coeff 0 = 0 := by
  rw [coeff_integral]
  simp

theorem le_poly_length (m : Nat) : m ≤ poly_length m :=
  Nat.le_pow_clog one_lt_two m

theorem toPoly_poly_extend_of_le {l : List F} {n : Nat} (h : l.length ≤ n) :
    toPoly (poly_extend l n) = toPoly l := by
  apply toPoly_eq_of_getD
  intro i
  rw [poly_extend, getD_mk]
  by_cases hi : i < n
  · rw [if_pos hi]
  · rw [if_neg hi, eq_comm]
    exact List.getD_eq_default _ _ (by omega)

theorem toPoly_map_neg (l : List F) :
    toPoly (l.map (fun x => 0 - x)) = -toPoly l := by
  induction l with
  | nil => simp [toPoly]
  | cons a t ih =>
    simp only [List.map_cons, toPoly, ih]
    rw [map_sub, map_zero]
    ring

theorem toPoly_addHead2 {l : List F} (h : l ≠ []) :
    toPoly (match l with
      | [] => ([] : List F)
      | a :: t => (a + 2) :: t) = toPoly l + C 2 := by
  match l with
  | a :: t =>
    simp only [toPoly]
    rw [map_add]
    ring

theorem getD_zero_take {l : List F} {k : Nat} (hk : 1 ≤ k) :
    (l.take k).getD 0 0 = l.getD 0 0 := by
  match l, k with
  | [], k => simp
  | a :: t, k + 1 => simp

theorem inverse_internal_length (p : List F) : (inverse_internal p).length = p.length := by
  rw [inverse_internal]
  split_ifs with h1 h0
  · simp [h1]
  · simp [h0]
  · exact length_mk _ _

/-- Correctness of Newton's iteration: `inverse_internal p` is a
multiplicative inverse of `p` modulo `x^(length p)`. -/
theorem inverse_internal_spec (N : Nat) :
    ∀ p : List F, p.length ≤ N → p.getD 0 0 ≠ 0 →
      X ^ p.length ∣ toPoly p * toPoly (inverse_internal p) - 1 := by
  induction N with
  | zero =>
    intro p hlen h0
    have : p = [] := List.length_eq_zero.1 (Nat.le_zero.1 hlen)
    subst this
    simp at h0
  | succ N ih =>
    intro p hlen h0
    by_cases h1 : p.length = 1
    · obtain ⟨a, rfl⟩ := List.length_eq_one.1 h1
      have ha : a ≠ 0 := by simpa using h0
      have hinv : inverse_internal [a] = [1 / a] := by
        rw [inverse_internal]
        simp
      rw [hinv]
      have hz : toPoly [a] * toPoly [1 / a] - 1 = 0 := by
        simp only [toPoly, mul_zero, add_zero]
        rw [← map_mul, mul_one_div, div_self ha, map_one, sub_self]
      rw [hz]
      exact dvd_zero _
    · by_cases hz : p.length = 0
      · rw [List.length_eq_zero.1 hz]
        simp
      · -- the Newton recursion step
        have hm2 : 2 ≤ p.length := by omega
        rw [inverse_internal, if_neg h1, if_neg hz]
        set m := p.length with hm
        set hp := (m + 1) / 2 with hhp
        set L := poly_length m with hL
        set C0l := inverse_internal (p.take hp) with hC0l
        have hple : hp ≤ m := by omega
        have hp1 : 1 ≤ hp := by omega
        have hpm : hp < m := by omega
        have hmL : m ≤ L := le_poly_length m
        have hm2h : m ≤ 2 * hp := by omega
        have lenC0 : C0l.length = hp := by
          rw [hC0l, inverse_internal_length, List.length_take]
          omega
        have hCe : toPoly (poly_extend C0l L) = toPoly C0l :=
          toPoly_poly_extend_of_le (by omega)
        have hA : toPoly (poly_extend p L) = toPoly p :=
          toPoly_poly_extend_of_le (by omega)
        have htake : toPoly (p.take hp) = truncP hp (toPoly p) := toPoly_take p hp
        have hIH : X ^ hp ∣ toPoly (p.take hp) * toPoly C0l - 1 := by
          have hIH0 := ih (p.take hp) (by rw [List.length_take]; omega)
            (by rw [getD_zero_take hp1]; exact h0)
          rwa [List.length_take, min_eq_left (by omega : hp ≤ p.length)] at hIH0
        set P := toPoly p with hP
        set Q := toPoly C0l with hQ
        have hU : X ^ hp ∣ P * Q - 1 := by
          have hsplit : P * Q - 1 =
              (P - truncP hp P) * Q + (truncP hp P * Q - 1) := by ring
          rw [hsplit]
          exact dvd_add (Dvd.dvd.mul_right (dvd_sub_truncP hp P) Q) (htake ▸ hIH)
        have hU2 : X ^ m ∣ (P * Q - 1) ^ 2 := by
          calc X ^ m ∣ X ^ (2 * hp) := pow_dvd_pow X hm2h
          _ = (X ^ hp) * (X ^ hp) := by rw [two_mul, pow_add]
          _ ∣ (P * Q - 1) * (P * Q - 1) := mul_dvd_mul hU hU
          _ = (P * Q - 1) ^ 2 := (sq _).symm
        -- identify the list computation with the polynomial-level Newton step
        have lenAC0 : (poly_extend (conv (poly_extend p L) (poly_extend C0l L)) m).length = m :=
          length_mk _ _
        have hAC0 : toPoly (poly_extend (conv (poly_extend p L) (poly_extend C0l L)) m)
            = truncP m (P * Q) := by
          rw [toPoly_poly_extend, toPoly_conv, hCe, hA]
        have hAC1 : toPoly ((poly_extend (conv (poly_extend p L) (poly_extend C0l L)) m).map
            (fun x => 0 - x)) = -truncP m (P * Q) := by
          rw [toPoly_map_neg, hAC0]
        have hne : (poly_extend (conv (poly_extend p L) (poly_extend C0l L)) m).map
            (fun x => 0 - x) ≠ [] := by
          intro hcon
          have hlc := congrArg List.length hcon
          rw [List.length_map, lenAC0] at hlc
          simp only [List.length_nil] at hlc
          omega
        have hAC2 : toPoly (match (poly_extend (conv (poly_extend p L) (poly_extend C0l L)) m).map
            (fun x => 0 - x) with
            | [] => ([] : List F)
            | a :: t => (a + 2) :: t) = -truncP m (P * Q) + C 2 := by
          rw [toPoly_addHead2 hne, hAC1]
        rw [toPoly_poly_extend, toPoly_conv, hCe, hAC2]
        set T := truncP m (P * Q) with hT
        have c2 : (C (2 : F)) = 2 := map_ofNat C 2
        -- the three congruence pieces
        have d1 : X ^ m ∣ truncP m (Q * (-T + C 2)) - Q * (-T + C 2) := by
          have hd := (dvd_neg).2 (dvd_sub_truncP m (Q * (-T + C 2)))
          rwa [neg_sub] at hd
        have d2 : X ^ m ∣ (P * Q) - T := dvd_sub_truncP m (P * Q)
        have key : P * truncP m (Q * (-T + C 2)) - 1 =
            P * (truncP m (Q * (-T + C 2)) - Q * (-T + C 2))
              + (P * Q) * ((P * Q) - T) + (-((P * Q - 1) ^ 2)) := by
          rw [c2]; ring
        rw [key]
        exact dvd_add (dvd_add (Dvd.dvd.mul_left d1 P) (Dvd.dvd.mul_left d2 (P * Q)))
          ((dvd_neg).2 hU2)

/-- Correctness of `PolyInverse::inverse`. -/
theorem conv_inverse_spec (a : List F) (n : Nat) (h0 : a.getD 0 0 ≠ 0) (hn : 1 ≤ n) :
    X ^ n ∣ toPoly a * toPoly (conv_inverse a n) - 1 := by
  rw [conv_inverse, toPoly_poly_trim]
  have hlen : (poly_extend a n).length = n := length_mk _ _
  have h0e : (poly_extend a n).getD 0 0 ≠ 0 := by
    rw [poly_extend, getD_mk, if_pos (by omega : 0 < n)]
    exact h0
  have hspec := inverse_internal_spec (poly_extend a n).length (poly_extend a n)
    le_rfl h0e
  rw [hlen] at hspec
  have hext : toPoly (poly_extend a n) = truncP n (toPoly a) := toPoly_poly_extend a n
  have hsplit : toPoly a * toPoly (inverse_internal (poly_extend a n)) - 1 =
      (toPoly a - truncP n (toPoly a)) * toPoly (inverse_internal (poly_extend a n))
        + (truncP n (toPoly a) * toPoly (inverse_internal (poly_extend a n)) - 1) := by
    ring
  rw [hsplit]
  exact dvd_add (Dvd.dvd.mul_right (dvd_sub_truncP n (toPoly a)) _) (hext ▸ hspec)

/-- Correctness of `Poly::inverse` for positive precision. -/
theorem toPoly_inverse (p : Poly F) (n : Nat) (h0 : p.coeffs.getD 0 0 ≠ 0) (hn : 1 ≤ n) :
    X ^ n ∣ toPoly p.coeffs * toPoly (p.inverse n).coeffs - 1 := by
  rw [inverse, if_neg (by omega : ¬ n = 0), toPoly_new]
  exact conv_inverse_spec p.coeffs n h0 hn

/-- C1: for every polynomial `p` whose constant term is invertible and every
precision `n ≥ 1`, the product `p * inverse(p, n)`, truncated modulo `x^n`,
equals the multiplicative-identity polynomial `[1]`. -/
theorem inverse_mul_mod_eq_one (p : Poly F) (n : Nat)
    (h0 : p.coeffs.getD 0 0 ≠ 0) (hn : 1 ≤ n) :
    (p * p.inverse n).modular n = Poly.one := by
  rw [modular, one, new_eq_new_iff, poly_modular, toPoly_take, toPoly_mul]
  have h1 : toPoly [(1 : F)] = 1 := by simp [toPoly]
  rw [h1]
  calc truncP n (toPoly p.coeffs * toPoly (p.inverse n).coeffs)
      = truncP n 1 := truncP_eq_of_dvd (toPoly_inverse p n h0 hn)
    _ = 1 := truncP_one hn

/-- Witness for C1 at `p = 1 + x` over `ℚ` with `n = 4`, the spec's own
concrete scenario (`inverse(p, 4) = [1, -1, 1, -1]`). -/
theorem inverse_mul_mod_eq_one_witness :
    ((Poly.new [1, 1] : Poly ℚ).coeffs.getD 0 0 ≠ 0) ∧ 1 ≤ 4 ∧
      ((Poly.new [1, 1] : Poly ℚ) * (Poly.new [1, 1]).inverse 4).modular 4 = Poly.one :=
  ⟨by decide, by decide, inverse_mul_mod_eq_one _ 4 (by decide) (by decide)⟩

/-- C7: every coefficient sequence is trimmed by construction: `new v` has at
least one coefficient and carries no trailing zero coefficients, except that
the zero polynomial is exactly `[0]`. -/
theorem new_trimming_invariant :
    ∀ v : List F, 1 ≤ (new v).coeffs.length ∧ Trimmed (new v).coeffs :=
  fun v => ⟨List.length_pos.2 (poly_trim_ne_nil v), trimmed_new v⟩

/-- C10: `left_shift(n)` panics (out-of-bounds slice, modelled as `none`)
exactly when `n` exceeds the coefficient-vector length, and otherwise returns
the trimmed polynomial built from the coefficients at indices `n..`. -/
theorem left_shift_spec (p : Poly F) (n : Nat) :
    (p.left_shift n = none ↔ p.coeffs.length < n) ∧
      (n ≤ p.coeffs.length → p.left_shift n = some (new (p.coeffs.drop n))) := by
  refine ⟨⟨?_, ?_⟩, ?_⟩
  · intro h
    rw [left_shift] at h
    by_cases hle : n ≤ p.coeffs.length
    · rw [if_pos hle] at h
      exact absurd h (by simp)
    · omega
  · intro h
    rw [left_shift, if_neg (by omega)]
  · intro h
    rw [left_shift, if_pos h]

/-- Witness for C10 at `p = 5 + 7x` over `ℚ`, `n = 1`. -/
theorem left_shift_spec_witness :
    1 ≤ (Poly.new [5, 7] : Poly ℚ).coeffs.length ∧
      (Poly.new [5, 7] : Poly ℚ).left_shift 1 =
        some (Poly.new ((Poly.new [5, 7] : Poly ℚ).coeffs.drop 1)) :=
  ⟨by decide, (left_shift_spec (Poly.new [5, 7] : Poly ℚ) 1).2 (by decide)⟩

/-- C9: `batch_mul` on a non-empty slice terminates (any recursion fuel of at
least the slice length suffices) and returns the product of the slice; on the
empty slice its recursion never reaches a base case, so no amount of fuel
produces a result. -/
theorem batch_mul_spec :
    (∀ l : List (Poly F), l ≠ [] → ∀ fuel, l.length ≤ fuel →
        ∃ r, batch_mul fuel l = some r ∧
          toPoly r.coeffs = (l.map (fun p => toPoly p.coeffs)).prod) ∧
      (∀ fuel, batch_mul fuel ([] : List (Poly F)) = none) := by
  constructor
  · intro l hl fuel
    induction fuel generalizing l with
    | zero =>
      intro hle
      exact absurd (List.length_eq_zero.1 (by omega)) hl
    | succ fuel ih =>
      intro hle
      rw [batch_mul]
      by_cases h1 : l.length = 1
      · obtain ⟨a, rfl⟩ := List.length_eq_one.1 h1
        exact ⟨a, by simp, by simp⟩
      · have h2 : 2 ≤ l.length := by
          have := List.length_pos.2 hl
          omega
        obtain ⟨r₁, hr₁, hp₁⟩ := ih (l.take (l.length / 2))
          (by
            intro hcon
            have := congrArg List.length hcon
            rw [List.length_take] at this
            simp only [List.length_nil] at this
            omega)
          (by rw [List.length_take]; omega)
        obtain ⟨r₂, hr₂, hp₂⟩ := ih (l.drop (l.length / 2))
          (by
            intro hcon
            have := congrArg List.length hcon
            rw [List.length_drop] at this
            simp only [List.length_nil] at this
            omega)
          (by rw [List.length_drop]; omega)
        refine ⟨r₁ * r₂, ?_, ?_⟩
        · simp [h1, hr₁, hr₂]
        · rw [toPoly_mul, hp₁, hp₂, ← List.prod_append, ← List.map_append,
            List.take_append_drop]
  · intro fuel
    induction fuel with
    | zero => rfl
    | succ fuel ih =>
      rw [batch_mul]
      simp [ih]

theorem toPoly_reverse (l : List F) :
    toPoly l.reverse = reflect (l.length - 1) (toPoly l) := by
  by_cases hl : l = []
  · subst hl
    simp [toPoly, reflect_zero]
  · have hlen : 1 ≤ l.length := List.length_pos.2 hl
    apply Polynomial.ext
    intro i
    rw [coeff_toPoly, coeff_reflect, coeff_toPoly]
    by_cases hi : i ≤ l.length - 1
    · rw [revAt_le hi]
      have hi2 : i < l.length := by omega
      rw [List.getD_eq_getElem?_getD, List.getD_eq_getElem?_getD,
        List.getElem?_reverse hi2]
    · push_neg at hi
      rw [revAt_eq_self_of_lt hi,
        List.getD_eq_default _ _ (by rw [List.length_reverse]; omega),
        List.getD_eq_default _ _ (by omega : l.length ≤ i)]

theorem proper_len_div_ge (c : Nat) : c + 1 ≤ poly_length (c * 2 + 1) :=
  le_trans (by omega) (le_poly_length (c * 2 + 1))

/-- The reversal trick: the list computation shared by `Div::div` and
`Poly::fast_div` produces the Euclidean quotient, for any list `cinv` that
inverts the reversed divisor to precision `c_rank + 1`. -/
theorem fast_div_core (a b cinv : List F) (ha : Trimmed a) (hb : Trimmed b)
    (hbz : toPoly b ≠ 0) (hlen : b.length ≤ a.length)
    (hc : X ^ (a.length - b.length + 1) ∣ toPoly b.reverse * toPoly cinv - 1) :
    toPoly ((poly_extend
        (conv (poly_modular a.reverse (poly_length ((a.length - b.length) * 2 + 1))) cinv)
        (a.length - b.length + 1)).reverse)
      = toPoly a / toPoly b := by
  have hbl : 1 ≤ b.length := List.length_pos.2 (by
    intro hcon
    rw [hcon] at hbz
    exact hbz rfl)
  have hal : 1 ≤ a.length := le_trans hbl hlen
  have hnd_a : (toPoly a).natDegree = a.length - 1 := by
    have := length_trimmed ha
    omega
  have hnd_b : (toPoly b).natDegree = b.length - 1 := by
    have := length_trimmed hb
    omega
  have hsum : toPoly a = toPoly b * (toPoly a / toPoly b) + toPoly a % toPoly b :=
    (EuclideanDomain.div_add_mod (toPoly a) (toPoly b)).symm
  have hdeg_r : (toPoly a % toPoly b).degree < (toPoly b).degree :=
    EuclideanDomain.mod_lt (toPoly a) hbz
  have hdeg_q : (toPoly a / toPoly b).natDegree ≤ a.length - b.length := by
    by_cases haz : toPoly a = 0
    · rw [haz, EuclideanDomain.zero_div]
      simp
    · have hdle : (toPoly b).degree ≤ (toPoly a).degree := by
        rw [Polynomial.degree_eq_natDegree hbz, Polynomial.degree_eq_natDegree haz,
          hnd_a, hnd_b]
        exact_mod_cast by omega
      have hadd := Polynomial.degree_add_div hbz hdle
      have hqz : toPoly a / toPoly b ≠ 0 := by
        intro hq0
        rw [hq0] at hadd
        rw [Polynomial.degree_eq_natDegree hbz, Polynomial.degree_eq_natDegree haz,
          hnd_a, hnd_b] at hadd
        simp only [Polynomial.degree_zero, WithBot.add_bot] at hadd
        exact (by simp : ¬ (⊥ : WithBot Nat) = ((a.length - 1 : Nat) : WithBot Nat)) hadd
      rw [Polynomial.degree_eq_natDegree hbz, Polynomial.degree_eq_natDegree haz,
        Polynomial.degree_eq_natDegree hqz, hnd_a, hnd_b] at hadd
      have hnat : (b.length - 1) + (toPoly a / toPoly b).natDegree = a.length - 1 := by
        exact_mod_cast hadd
      omega
  have hrefl_a : reflect (a.length - 1) (toPoly a)
      = reflect (b.length - 1) (toPoly b) * reflect (a.length - b.length) (toPoly a / toPoly b)
        + reflect (a.length - 1) (toPoly a % toPoly b) := by
    have hmc : (b.length - 1) + (a.length - b.length) = a.length - 1 := by omega
    conv_lhs => rw [hsum]
    rw [reflect_add, ← hmc,
      reflect_mul (toPoly b) (toPoly a / toPoly b) (le_of_eq hnd_b) hdeg_q]
  have hdvd_r : X ^ (a.length - b.length + 1) ∣ reflect (a.length - 1) (toPoly a % toPoly b) := by
    rw [X_pow_dvd_iff]
    intro d hd
    rw [coeff_reflect, revAt_le (by omega : d ≤ a.length - 1)]
    apply Polynomial.coeff_eq_zero_of_degree_lt
    refine lt_of_lt_of_le hdeg_r ?_
    rw [Polynomial.degree_eq_natDegree hbz, hnd_b]
    exact_mod_cast by omega
  have hL : a.length - b.length + 1 ≤ poly_length ((a.length - b.length) * 2 + 1) :=
    proper_len_div_ge (a.length - b.length)
  have hAt : toPoly (poly_modular a.reverse (poly_length ((a.length - b.length) * 2 + 1)))
      = truncP (poly_length ((a.length - b.length) * 2 + 1))
          (reflect (a.length - 1) (toPoly a)) := by
    rw [poly_modular, toPoly_take, toPoly_reverse]
  have e1 : X ^ (a.length - b.length + 1)
      ∣ toPoly (poly_modular a.reverse (poly_length ((a.length - b.length) * 2 + 1))) * toPoly cinv
        - reflect (a.length - 1) (toPoly a) * toPoly cinv := by
    have hfac : toPoly (poly_modular a.reverse (poly_length ((a.length - b.length) * 2 + 1))) * toPoly cinv
        - reflect (a.length - 1) (toPoly a) * toPoly cinv
        = (truncP (poly_length ((a.length - b.length) * 2 + 1)) (reflect (a.length - 1) (toPoly a))
            - reflect (a.length - 1) (toPoly a)) * toPoly cinv := by
      rw [hAt]
      ring
    rw [hfac]
    refine Dvd.dvd.mul_right ?_ _
    have hd := (dvd_neg).2 (dvd_sub_truncP (poly_length ((a.length - b.length) * 2 + 1))
      (reflect (a.length - 1) (toPoly a)))
    rw [neg_sub] at hd
    exact dvd_trans (pow_dvd_pow X hL) hd
  have e2 : X ^ (a.length - b.length + 1)
      ∣ reflect (a.length - 1) (toPoly a) * toPoly cinv
        - reflect (a.length - b.length) (toPoly a / toPoly b) := by
    have hsplit : reflect (a.length - 1) (toPoly a) * toPoly cinv
        - reflect (a.length - b.length) (toPoly a / toPoly b)
        = reflect (a.length - b.length) (toPoly a / toPoly b)
            * (reflect (b.length - 1) (toPoly b) * toPoly cinv - 1)
          + reflect (a.length - 1) (toPoly a % toPoly b) * toPoly cinv := by
      rw [hrefl_a]
      ring
    rw [hsplit]
    refine dvd_add (Dvd.dvd.mul_left ?_ _) (Dvd.dvd.mul_right hdvd_r _)
    rw [← toPoly_reverse b]
    exact hc
  have e3 : X ^ (a.length - b.length + 1)
      ∣ toPoly (poly_modular a.reverse (poly_length ((a.length - b.length) * 2 + 1))) * toPoly cinv
        - reflect (a.length - b.length) (toPoly a / toPoly b) := by
    have hsum2 : toPoly (poly_modular a.reverse (poly_length ((a.length - b.length) * 2 + 1))) * toPoly cinv
        - reflect (a.length - b.length) (toPoly a / toPoly b)
        = (toPoly (poly_modular a.reverse (poly_length ((a.length - b.length) * 2 + 1))) * toPoly cinv
            - reflect (a.length - 1) (toPoly a) * toPoly cinv)
          + (reflect (a.length - 1) (toPoly a) * toPoly cinv
            - reflect (a.length - b.length) (toPoly a / toPoly b)) := by
      ring
    rw [hsum2]
    exact dvd_add e1 e2
  have key : truncP (a.length - b.length + 1)
      (toPoly (poly_modular a.reverse (poly_length ((a.length - b.length) * 2 + 1))) * toPoly cinv)
      = reflect (a.length - b.length) (toPoly a / toPoly b) := by
    rw [truncP_eq_of_dvd e3]
    apply truncP_eq_self
    have hnr : (reflect (a.length - b.length) (toPoly a / toPoly b)).natDegree
        ≤ a.length - b.length := by
      apply Polynomial.natDegree_le_iff_coeff_eq_zero.2
      intro i hi
      rw [coeff_reflect, revAt_eq_self_of_lt hi]
      exact Polynomial.coeff_eq_zero_of_natDegree_lt (lt_of_le_of_lt hdeg_q hi)
    omega
  have hlenprod : (poly_extend
      (conv (poly_modular a.reverse (poly_length ((a.length - b.length) * 2 + 1))) cinv)
      (a.length - b.length + 1)).length = a.length - b.length + 1 := length_mk _ _
  rw [toPoly_reverse, hlenprod, toPoly_poly_extend, toPoly_conv, Nat.add_sub_cancel, key]
  apply Polynomial.ext
  intro i
  rw [coeff_reflect, coeff_reflect, revAt_invol]


theorem repOf_zero : repOf (0 : Polynomial F) = [0] := by
  simp [repOf, mkL, List.range_succ]

theorem toPoly_ne_zero_of_trimmed {l : List F} (h : Trimmed l) (hne : l ≠ [0]) :
    toPoly l ≠ 0 := by
  intro h0
  apply hne
  have := repOf_toPoly h
  rw [h0, repOf_zero] at this
  exact this.symm

theorem rank_eq_natDegree {p : Poly F} (h : Trimmed p.coeffs) :
    p.rank = (toPoly p.coeffs).natDegree := by
  rw [rank, length_trimmed h]
  rfl

theorem poly_eq_of_toPoly_eq {p q : Poly F} (hp : Trimmed p.coeffs) (hq : Trimmed q.coeffs)
    (h : toPoly p.coeffs = toPoly q.coeffs) : p = q := by
  have := trimmed_eq_of_toPoly_eq hp hq h
  cases p
  cases q
  simpa using this

theorem trimmed_sub (a b : Poly F) : Trimmed (a - b).coeffs := trimmed_poly_trim _

theorem trimmed_add (a b : Poly F) : Trimmed (a + b).coeffs := trimmed_poly_trim _

theorem trimmed_mul (a b : Poly F) : Trimmed (a * b).coeffs := trimmed_poly_trim _

theorem rem_def (a b : Poly F) : a % b = a - (a / b) * b := rfl

theorem zero_coeffs : (zero (F := F)).coeffs = [0] := by
  show poly_trim [0] = [0]
  have h : trimAux ([0] : List F) = [] := by
    rw [trimAux]
    simp [trimAux]
  rw [poly_trim, if_pos h]

theorem trimmed_reverse_getD {l : List F} (h : Trimmed l) (hz : toPoly l ≠ 0) :
    l.reverse.getD 0 0 ≠ 0 := by
  rcases h with rfl | ⟨hne, hlast⟩
  · exact absurd (by simp [toPoly]) hz
  · obtain ⟨x, hx⟩ := Option.ne_none_iff_exists'.1
      (by simpa [List.getLast?_eq_none_iff] using hne : l.getLast? ≠ none)
    have hx0 : x ≠ 0 := fun h0 => hlast (h0 ▸ hx)
    have hhead : l.reverse.head? = some x := by
      rw [List.head?_reverse]
      exact hx
    have : l.reverse.getD 0 0 = x := by
      rw [List.getD_eq_getElem?_getD, ← List.head?_eq_getElem?, hhead]
      rfl
    rw [this]
    exact hx0

/-- Shift an inverse valid to precision `K` down to a smaller precision. -/
theorem inv_precision_mono {b inv : List F} {k K : Nat} (hkK : k ≤ K)
    (h : X ^ K ∣ toPoly b * toPoly inv - 1) :
    X ^ k ∣ toPoly b * toPoly inv - 1 :=
  dvd_trans (pow_dvd_pow X hkK) h

/-- A truncation of a valid inverse is still a valid inverse at the
truncated precision. -/
theorem inv_take {b inv : List F} {k K : Nat} (hkK : k ≤ K)
    (h : X ^ K ∣ toPoly b * toPoly inv - 1) :
    X ^ k ∣ toPoly b * toPoly (inv.take k) - 1 := by
  have hsplit : toPoly b * toPoly (inv.take k) - 1
      = toPoly b * (truncP k (toPoly inv) - toPoly inv)
        + (toPoly b * toPoly inv - 1) := by
    rw [toPoly_take]
    ring
  rw [hsplit]
  refine dvd_add (Dvd.dvd.mul_left ?_ _) (inv_precision_mono hkK h)
  have hd := (dvd_neg).2 (dvd_sub_truncP k (toPoly inv))
  rwa [neg_sub] at hd

/-- `Div::div` computes the Euclidean quotient. -/
theorem div_eq (a b : Poly F) (ha : Trimmed a.coeffs) (hb : Trimmed b.coeffs)
    (hbz : toPoly b.coeffs ≠ 0) :
    toPoly (a / b).coeffs = toPoly a.coeffs / toPoly b.coeffs := by
  show toPoly (div a b).coeffs = _
  rw [div]
  by_cases hlt : a.coeffs.length < b.coeffs.length
  · rw [if_pos hlt]
    have hq0 : toPoly a.coeffs / toPoly b.coeffs = 0 := by
      rw [Polynomial.div_eq_zero_iff hbz]
      by_cases haz : toPoly a.coeffs = 0
      · rw [haz, Polynomial.degree_zero]
        exact Ne.bot_lt (fun hcon => hbz (Polynomial.degree_eq_bot.1 hcon))
      · rw [Polynomial.degree_eq_natDegree haz, Polynomial.degree_eq_natDegree hbz]
        have h1 := length_trimmed ha
        have h2 := length_trimmed hb
        exact_mod_cast by omega
    rw [hq0, default]
    rw [toPoly_new]
    simp [toPoly]
  · rw [if_neg hlt]
    push_neg at hlt
    simp only [List.length_reverse]
    rw [toPoly_new]
    apply fast_div_core a.coeffs b.coeffs _ ha hb hbz hlt
    -- the computed inverse of the truncated reversal works for the reversal
    have hbt : (poly_modular b.coeffs.reverse
        (poly_length ((a.coeffs.length - b.coeffs.length) * 2 + 1))).getD 0 0 ≠ 0 := by
      rw [poly_modular, getD_zero_take (by
        have := proper_len_div_ge (a.coeffs.length - b.coeffs.length)
        omega)]
      exact trimmed_reverse_getD hb hbz
    have hspec := conv_inverse_spec _ (a.coeffs.length - b.coeffs.length + 1) hbt
      (by omega)
    have hbtake : toPoly (poly_modular b.coeffs.reverse
        (poly_length ((a.coeffs.length - b.coeffs.length) * 2 + 1)))
        = truncP (poly_length ((a.coeffs.length - b.coeffs.length) * 2 + 1))
            (toPoly b.coeffs.reverse) := by
      rw [poly_modular, toPoly_take]
    have hsplit : toPoly b.coeffs.reverse * toPoly (conv_inverse
        (poly_modular b.coeffs.reverse
          (poly_length ((a.coeffs.length - b.coeffs.length) * 2 + 1)))
        (a.coeffs.length - b.coeffs.length + 1)) - 1
        = (toPoly b.coeffs.reverse - truncP (poly_length ((a.coeffs.length - b.coeffs.length) * 2 + 1)) (toPoly b.coeffs.reverse))
            * toPoly (conv_inverse (poly_modular b.coeffs.reverse
              (poly_length ((a.coeffs.length - b.coeffs.length) * 2 + 1)))
              (a.coeffs.length - b.coeffs.length + 1))
          + (toPoly (poly_modular b.coeffs.reverse
              (poly_length ((a.coeffs.length - b.coeffs.length) * 2 + 1)))
              * toPoly (conv_inverse (poly_modular b.coeffs.reverse
                (poly_length ((a.coeffs.length - b.coeffs.length) * 2 + 1)))
                (a.coeffs.length - b.coeffs.length + 1)) - 1) := by
      rw [hbtake]
      ring
    rw [hsplit]
    refine dvd_add (Dvd.dvd.mul_right ?_ _) hspec
    exact dvd_trans (pow_dvd_pow X (proper_len_div_ge _))
      (dvd_sub_truncP _ _)

/-- `Rem for Poly` computes the Euclidean remainder. -/
theorem rem_eq (a b : Poly F) (ha : Trimmed a.coeffs) (hb : Trimmed b.coeffs)
    (hbz : toPoly b.coeffs ≠ 0) :
    toPoly (a % b).coeffs = toPoly a.coeffs % toPoly b.coeffs := by
  rw [rem_def, toPoly_sub, toPoly_mul, div_eq a b ha hb hbz]
  have := EuclideanDomain.div_add_mod (toPoly a.coeffs) (toPoly b.coeffs)
  linear_combination -this

/-- C2 (amended): the division round-trip `(a/b)*b + (a%b) = a` holds for all
trimmed `a` and nonzero `b`; and when additionally `rank b ≥ 1` and
`rank a ≥ rank b`, the remainder has rank strictly below `rank b`. -/
theorem div_mod_round_trip (a b : Poly F) (ha : Trimmed a.coeffs) (hb : Trimmed b.coeffs)
    (hbz : b ≠ zero) :
    (a / b) * b + a % b = a ∧
      (1 ≤ b.rank → b.rank ≤ a.rank → (a % b).rank < b.rank) := by
  have hbz' : toPoly b.coeffs ≠ 0 := by
    apply toPoly_ne_zero_of_trimmed hb
    intro hcon
    apply hbz
    have hb0 : toPoly b.coeffs = 0 := by rw [hcon]; simp [toPoly]
    exact poly_eq_of_toPoly_eq hb (trimmed_poly_trim [0])
      (by rw [hb0, toPoly_zero_poly])
  constructor
  · apply poly_eq_of_toPoly_eq (trimmed_add _ _) ha
    rw [toPoly_add, toPoly_mul, rem_def, toPoly_sub, toPoly_mul]
    ring
  · intro hrb hra
    have hr : toPoly (a % b).coeffs = toPoly a.coeffs % toPoly b.coeffs :=
      rem_eq a b ha hb hbz'
    have htr : Trimmed (a % b).coeffs := by
      rw [rem_def]
      exact trimmed_sub _ _
    rw [rank_eq_natDegree htr, hr, rank_eq_natDegree hb]
    have hdeg : (toPoly a.coeffs % toPoly b.coeffs).degree < (toPoly b.coeffs).degree :=
      EuclideanDomain.mod_lt _ hbz'
    by_cases hrz : toPoly a.coeffs % toPoly b.coeffs = 0
    · rw [hrz]
      simp only [Polynomial.natDegree_zero]
      rw [rank_eq_natDegree hb] at hrb
      omega
    · exact Polynomial.natDegree_lt_natDegree hrz hdeg

/-- Witness for C2 (amended) at the spec's concrete scenario
`a = 1 + x + x²`, `b = 1 + x` over `ℚ`. -/
theorem div_mod_round_trip_witness :
    (Trimmed (Poly.new [1, 1, 1] : Poly ℚ).coeffs ∧
        Trimmed (Poly.new [1, 1] : Poly ℚ).coeffs ∧
        (Poly.new [1, 1] : Poly ℚ) ≠ zero ∧
        1 ≤ (Poly.new [1, 1] : Poly ℚ).rank ∧
        (Poly.new [1, 1] : Poly ℚ).rank ≤ (Poly.new [1, 1, 1] : Poly ℚ).rank) ∧
      ((Poly.new [1, 1, 1] : Poly ℚ) / Poly.new [1, 1]) * Poly.new [1, 1]
          + (Poly.new [1, 1, 1] : Poly ℚ) % Poly.new [1, 1] = Poly.new [1, 1, 1] ∧
        ((Poly.new [1, 1, 1] : Poly ℚ) % Poly.new [1, 1]).rank
          < (Poly.new [1, 1] : Poly ℚ).rank :=
  ⟨⟨by decide, by decide, by decide, by decide, by decide⟩,
    (div_mod_round_trip (Poly.new [1, 1, 1]) (Poly.new [1, 1])
        (by decide) (by decide) (by decide)).1,
    (div_mod_round_trip (Poly.new [1, 1, 1]) (Poly.new [1, 1])
        (by decide) (by decide) (by decide)).2 (by decide) (by decide)⟩

/-- Counterexample to C2 as stated: with `a = b = [1]` over `ℚ` we have
`rank a ≥ rank b` but the remainder `[0]` has rank `0 = rank b`, not less. -/
theorem div_mod_round_trip_counterexample :
    (Poly.new [1] : Poly ℚ).rank ≤ (Poly.new [1] : Poly ℚ).rank ∧
      ¬ ((Poly.new [1] : Poly ℚ) % Poly.new [1]).rank < (Poly.new [1] : Poly ℚ).rank := by
  constructor
  · exact le_refl _
  · intro hcon
    have h1 : Trimmed (Poly.new [1] : Poly ℚ).coeffs := by decide
    have hz : toPoly (Poly.new [1] : Poly ℚ).coeffs ≠ 0 :=
      toPoly_ne_zero_of_trimmed h1 (by decide)
    have hr := rem_eq (Poly.new [1] : Poly ℚ) (Poly.new [1]) h1 h1 hz
    rw [EuclideanDomain.mod_self] at hr
    have htr : Trimmed ((Poly.new [1] : Poly ℚ) % Poly.new [1]).coeffs := by
      rw [rem_def]
      exact trimmed_sub _ _
    have hrank : ((Poly.new [1] : Poly ℚ) % Poly.new [1]).rank = 0 := by
      rw [rank_eq_natDegree htr, hr]
      simp
    have hrank1 : (Poly.new [1] : Poly ℚ).rank = 0 := by decide
    omega

theorem one_coeffs : (one (F := F)).coeffs = [1] := by
  show poly_trim [1] = [1]
  have h : trimAux ([1] : List F) = [1] := by
    rw [trimAux]
    simp [trimAux, one_ne_zero]
  rw [poly_trim, h]
  simp

theorem rank_one : (one (F := F)).rank = 0 := by
  rw [rank, one_coeffs]
  rfl

theorem trimmed_ne_nil {l : List F} (h : Trimmed l) : l ≠ [] := by
  rcases h with rfl | ⟨hne, _⟩
  · simp
  · exact hne

theorem trimmed_pow2 (p : Poly F) : Trimmed p.pow2.coeffs := trimmed_poly_trim _

theorem trimmed_right_shift (p : Poly F) (n : Nat) : Trimmed (p.right_shift n).coeffs := by
  rw [right_shift]
  split_ifs
  · exact trimmed_poly_trim _
  · exact trimmed_poly_trim _

theorem trimmed_one : Trimmed (one (F := F)).coeffs := trimmed_poly_trim _

/-- `Poly::fast_div` with a precomputed inverse of sufficient precision
computes the Euclidean quotient. -/
theorem fast_div_eq (a b binv : Poly F) (ha : Trimmed a.coeffs) (hb : Trimmed b.coeffs)
    (hbz : toPoly b.coeffs ≠ 0) {K : Nat}
    (hlen : b.coeffs.length ≤ a.coeffs.length)
    (hK : a.coeffs.length - b.coeffs.length + 1 ≤ K)
    (hinv : X ^ K ∣ toPoly b.coeffs.reverse * toPoly binv.coeffs - 1) :
    toPoly (fast_div a b binv).coeffs = toPoly a.coeffs / toPoly b.coeffs := by
  rw [fast_div, if_neg (by omega)]
  simp only [List.length_reverse]
  rw [toPoly_new]
  apply fast_div_core a.coeffs b.coeffs _ ha hb hbz hlen
  rw [poly_modular, toPoly_take]
  have hd := inv_take (le_trans hK le_rfl) hinv
    (k := a.coeffs.length - b.coeffs.length + 1)
  rwa [toPoly_take] at hd

/-- `Poly::fast_rem` with a precomputed inverse of sufficient precision:
the internal assertion passes and the Euclidean remainder is returned. -/
theorem fast_rem_eq (a b binv : Poly F) (ha : Trimmed a.coeffs) (hb : Trimmed b.coeffs)
    (hbz : toPoly b.coeffs ≠ 0) {K : Nat}
    (hlen : b.coeffs.length ≤ a.coeffs.length)
    (hrb : 1 ≤ b.rank)
    (hK : a.coeffs.length - b.coeffs.length + 1 ≤ K)
    (hinv : X ^ K ∣ toPoly b.coeffs.reverse * toPoly binv.coeffs - 1) :
    fast_rem a b binv = some (a - b * fast_div a b binv) ∧
      Trimmed (a - b * fast_div a b binv).coeffs ∧
      toPoly (a - b * fast_div a b binv).coeffs = toPoly a.coeffs % toPoly b.coeffs ∧
      (a - b * fast_div a b binv).rank < b.rank := by
  have hd := fast_div_eq a b binv ha hb hbz hlen hK hinv
  have hres : toPoly (a - b * fast_div a b binv).coeffs
      = toPoly a.coeffs % toPoly b.coeffs := by
    rw [toPoly_sub, toPoly_mul, hd]
    have := EuclideanDomain.div_add_mod (toPoly a.coeffs) (toPoly b.coeffs)
    linear_combination -this
  have htrim : Trimmed (a - b * fast_div a b binv).coeffs := trimmed_sub _ _
  have hdeg : (toPoly a.coeffs % toPoly b.coeffs).degree < (toPoly b.coeffs).degree :=
    EuclideanDomain.mod_lt _ hbz
  have hrankb : b.rank = (toPoly b.coeffs).natDegree := rank_eq_natDegree hb
  have hranka : a.rank = (toPoly a.coeffs).natDegree := rank_eq_natDegree ha
  have hrankres : (a - b * fast_div a b binv).rank < b.rank := by
    rw [rank_eq_natDegree htrim, hres, hrankb]
    by_cases hrz : toPoly a.coeffs % toPoly b.coeffs = 0
    · rw [hrz]
      simp only [Polynomial.natDegree_zero]
      omega
    · exact Polynomial.natDegree_lt_natDegree hrz hdeg
  have hba : b.rank ≤ a.rank := by
    rw [rank, rank]
    have h1 := List.length_pos.2 (trimmed_ne_nil hb)
    omega
  refine ⟨?_, htrim, hres, hrankres⟩
  rw [fast_rem]
  rw [if_pos (by omega : (a - b * fast_div a b binv).rank < a.rank)]

/-- The invariant of `downgrade_mod_internal`: given a valid precomputed
inverse, every recursive call succeeds and returns a reduced representative
of `x^e` modulo the modulus, with `e` read least-significant-bit first. -/
theorem downgrade_mod_internal_spec (m inv : Poly F) {K : Nat}
    (hm : Trimmed m.coeffs) (hrk : 1 ≤ m.rank)
    (hKm : m.rank ≤ K)
    (hinv : X ^ K ∣ toPoly m.coeffs.reverse * toPoly inv.coeffs - 1) :
    ∀ bits : List Nat, ∃ r, downgrade_mod_internal m bits inv = some r ∧
      Trimmed r.coeffs ∧ r.rank < m.rank ∧
      toPoly m.coeffs ∣ (toPoly r.coeffs - X ^ lsbVal bits) := by
  have hmz : toPoly m.coeffs ≠ 0 := by
    apply toPoly_ne_zero_of_trimmed hm
    intro hcon
    have : m.rank = 0 := by rw [rank, hcon]; rfl
    omega
  have hmlen : m.coeffs.length = m.rank + 1 := by
    have := List.length_pos.2 (trimmed_ne_nil hm)
    rw [rank]
    omega
  intro bits
  induction bits with
  | nil =>
    refine ⟨one, rfl, trimmed_one, by rw [rank_one]; omega, ?_⟩
    rw [lsbVal, pow_zero, toPoly_one_poly, sub_self]
    exact dvd_zero _
  | cons bit rest ih =>
    obtain ⟨r, hr, htrim, hrank, hdvd⟩ := ih
    have hcons : downgrade_mod_internal m (bit :: rest) inv =
        (downgrade_mod_internal m rest inv).bind fun ans =>
          if ans.rank < m.rank then
            (if (if bit = 1 then ans.pow2.right_shift 1 else ans.pow2).rank < m.rank
              then some (if bit = 1 then ans.pow2.right_shift 1 else ans.pow2)
              else fast_rem (if bit = 1 then ans.pow2.right_shift 1 else ans.pow2) m inv)
          else none := rfl
    rw [hcons, hr, Option.some_bind, if_pos hrank]
    have htrim3 : Trimmed (if bit = 1 then r.pow2.right_shift 1 else r.pow2).coeffs := by
      split_ifs
      · exact trimmed_right_shift _ _
      · exact trimmed_pow2 _
    have hval3 : toPoly (if bit = 1 then r.pow2.right_shift 1 else r.pow2).coeffs
        = X ^ bitVal bit * (toPoly r.coeffs * toPoly r.coeffs) := by
      rw [bitVal]
      split_ifs with hbit
      · rw [toPoly_right_shift, toPoly_pow2, pow_one]
      · rw [toPoly_pow2, pow_zero, one_mul]
    have hdvd3 : toPoly m.coeffs ∣
        toPoly (if bit = 1 then r.pow2.right_shift 1 else r.pow2).coeffs
          - X ^ lsbVal (bit :: rest) := by
      have hsplit : toPoly (if bit = 1 then r.pow2.right_shift 1 else r.pow2).coeffs
          - X ^ lsbVal (bit :: rest)
          = X ^ bitVal bit * ((toPoly r.coeffs - X ^ lsbVal rest)
              * (toPoly r.coeffs + X ^ lsbVal rest)) := by
        rw [hval3, lsbVal, pow_add, two_mul, pow_add]
        ring
      rw [hsplit]
      exact Dvd.dvd.mul_left (Dvd.dvd.mul_right hdvd _) _
    have hnd3 : (toPoly (if bit = 1 then r.pow2.right_shift 1 else r.pow2).coeffs).natDegree
        ≤ 2 * m.rank - 1 := by
      rw [hval3]
      have hb1 : bitVal bit ≤ 1 := by
        rw [bitVal]
        split_ifs <;> omega
      have hr2 : (toPoly r.coeffs * toPoly r.coeffs).natDegree
          ≤ (toPoly r.coeffs).natDegree + (toPoly r.coeffs).natDegree :=
        Polynomial.natDegree_mul_le
      have hrdeg : (toPoly r.coeffs).natDegree ≤ m.rank - 1 := by
        rw [← rank_eq_natDegree htrim]
        omega
      calc (X ^ bitVal bit * (toPoly r.coeffs * toPoly r.coeffs)).natDegree
          ≤ (X ^ bitVal bit : Polynomial F).natDegree
            + (toPoly r.coeffs * toPoly r.coeffs).natDegree := Polynomial.natDegree_mul_le
        _ ≤ bitVal bit + ((toPoly r.coeffs).natDegree + (toPoly r.coeffs).natDegree) := by
            rw [Polynomial.natDegree_X_pow]
            omega
        _ ≤ 2 * m.rank - 1 := by omega
    by_cases hsm : (if bit = 1 then r.pow2.right_shift 1 else r.pow2).rank < m.rank
    · rw [if_pos hsm]
      exact ⟨_, rfl, htrim3, hsm, hdvd3⟩
    · rw [if_neg hsm]
      have hlen3 : m.coeffs.length
          ≤ (if bit = 1 then r.pow2.right_shift 1 else r.pow2).coeffs.length := by
        have h1 := List.length_pos.2 (trimmed_ne_nil htrim3)
        have h2 : m.rank ≤ (if bit = 1 then r.pow2.right_shift 1 else r.pow2).rank := by
          omega
        rw [rank, rank] at h2
        omega
      have hc3 : (if bit = 1 then r.pow2.right_shift 1 else r.pow2).coeffs.length
          - m.coeffs.length + 1 ≤ K := by
        have h1 := List.length_pos.2 (trimmed_ne_nil htrim3)
        have h2 : (if bit = 1 then r.pow2.right_shift 1 else r.pow2).rank
            ≤ 2 * m.rank - 1 := by
          rw [rank_eq_natDegree htrim3]
          exact hnd3
        rw [rank] at h2
        omega
      obtain ⟨hsome, htrimr, hresr, hrankr⟩ :=
        fast_rem_eq (if bit = 1 then r.pow2.right_shift 1 else r.pow2) m inv
          htrim3 hm hmz hlen3 hrk hc3 hinv
      refine ⟨_, hsome, htrimr, hrankr, ?_⟩
      rw [hresr]
      have hmod : toPoly (if bit = 1 then r.pow2.right_shift 1 else r.pow2).coeffs
            % toPoly m.coeffs - X ^ lsbVal (bit :: rest)
          = (toPoly (if bit = 1 then r.pow2.right_shift 1 else r.pow2).coeffs
              - X ^ lsbVal (bit :: rest))
            - toPoly m.coeffs
              * (toPoly (if bit = 1 then r.pow2.right_shift 1 else r.pow2).coeffs
                / toPoly m.coeffs) := by
        have hdm := EuclideanDomain.div_add_mod
          (toPoly (if bit = 1 then r.pow2.right_shift 1 else r.pow2).coeffs)
          (toPoly m.coeffs)
        linear_combination hdm
      rw [hmod]
      exact dvd_sub hdvd3 (dvd_mul_right _ _)

/-- The inverse precomputed by `downgrade_mod` is valid to precision
`2 * rank`. -/
theorem downgrade_inv_spec (m : Poly F) (hm : Trimmed m.coeffs) (hrk : 1 ≤ m.rank) :
    X ^ (2 * m.rank) ∣ toPoly m.coeffs.reverse
      * toPoly ((new m.coeffs.reverse).inverse ((m.rank - 1) * 2 + 1 + 1)).coeffs - 1 := by
  have hmz : toPoly m.coeffs ≠ 0 := by
    apply toPoly_ne_zero_of_trimmed hm
    intro hcon
    have : m.rank = 0 := by rw [rank, hcon]; rfl
    omega
  have h0 : (new m.coeffs.reverse).coeffs.getD 0 0 ≠ 0 := by
    rw [coeffs_new, getD_poly_trim]
    exact trimmed_reverse_getD hm hmz
  have hspec := toPoly_inverse (new m.coeffs.reverse) ((m.rank - 1) * 2 + 1 + 1) h0
    (by omega)
  rw [toPoly_new] at hspec
  have heq : (m.rank - 1) * 2 + 1 + 1 = 2 * m.rank := by omega
  rw [heq] at hspec
  rw [heq]
  exact hspec

theorem downgrade_mod_pos (m : Poly F) (bits : List Nat) (h : ¬ m.rank = 0) :
    downgrade_mod m bits = downgrade_mod_internal m bits
      ((new m.coeffs.reverse).inverse ((m.rank - 1) * 2 + 1 + 1)) := by
  rw [downgrade_mod, if_neg h]

/-- C6: with a trimmed modulus of rank at least 1, no internal assertion of
`downgrade_mod` ever fails for any finite bit sequence: the computation
always produces a value (`isSome`); the reduced polynomial stays below the
modulus rank at every step and every `fast_rem` remainder rank decreases. -/
theorem downgrade_mod_asserts (m : Poly F) (bits : List Nat)
    (hm : Trimmed m.coeffs) (hrk : 1 ≤ m.rank) :
    (downgrade_mod m bits).isSome := by
  rw [downgrade_mod_pos m bits (by omega)]
  obtain ⟨r, hr, -, -, -⟩ := downgrade_mod_internal_spec m _ hm hrk (by omega)
    (downgrade_inv_spec m hm hrk) bits
  rw [hr]
  rfl

/-- Witness for C6 at the Fibonacci modulus `x² - x - 1` over `ℚ` with the
bit sequence `[1, 0, 1]`. -/
theorem downgrade_mod_asserts_witness :
    (Trimmed (Poly.new [-1, -1, 1] : Poly ℚ).coeffs
        ∧ 1 ≤ (Poly.new [-1, -1, 1] : Poly ℚ).rank) ∧
      (downgrade_mod (Poly.new [-1, -1, 1] : Poly ℚ) [1, 0, 1]).isSome :=
  ⟨⟨by decide, by decide⟩,
    downgrade_mod_asserts (Poly.new [-1, -1, 1]) [1, 0, 1] (by decide) (by decide)⟩

/-- C3 (amended): `downgrade_mod` consumes the bit sequence with the FIRST
yielded bit as the LEAST-significant binary digit: for a trimmed modulus `M`
of rank ≥ 1 and bits `b₁..b_k`, it returns the representative of
`x^e mod M` with `e = b₁·2⁰ + b₂·2¹ + ⋯ + b_k·2^(k-1)`; the empty sequence
yields the multiplicative identity, and a rank-0 modulus yields zero. -/
theorem downgrade_mod_value :
    (∀ (m : Poly F) (bits : List Nat), Trimmed m.coeffs → 1 ≤ m.rank →
        (∀ b ∈ bits, b ≤ 1) →
        ∃ r, downgrade_mod m bits = some r ∧ r.rank < m.rank ∧
          toPoly m.coeffs ∣ toPoly r.coeffs - X ^ lsbVal bits) ∧
      (∀ m : Poly F, 1 ≤ m.rank → downgrade_mod m [] = some one) ∧
      (∀ (m : Poly F) (bits : List Nat), m.rank = 0 → downgrade_mod m bits = some zero) := by
  refine ⟨?_, ?_, ?_⟩
  · intro m bits hm hrk hbits
    rw [downgrade_mod_pos m bits (by omega)]
    obtain ⟨r, hr, htrim, hrank, hdvd⟩ := downgrade_mod_internal_spec m _ hm hrk (by omega)
      (downgrade_inv_spec m hm hrk) bits
    exact ⟨r, hr, hrank, hdvd⟩
  · intro m h1
    rw [downgrade_mod_pos m [] (by omega)]
    rfl
  · intro m bits h0
    rw [downgrade_mod, if_pos h0]

/-- Witness for C3 (amended) at the Fibonacci modulus `x² - x - 1` over `ℚ`
with bits `[1, 0, 1]` (exponent 5 in both bit orders). -/
theorem downgrade_mod_value_witness :
    (Trimmed (Poly.new [-1, -1, 1] : Poly ℚ).coeffs
        ∧ 1 ≤ (Poly.new [-1, -1, 1] : Poly ℚ).rank
        ∧ (∀ b ∈ [1, 0, 1], b ≤ 1)) ∧
      ∃ r, downgrade_mod (Poly.new [-1, -1, 1] : Poly ℚ) [1, 0, 1] = some r ∧
        r.rank < (Poly.new [-1, -1, 1] : Poly ℚ).rank ∧
        toPoly (Poly.new [-1, -1, 1] : Poly ℚ).coeffs
          ∣ toPoly r.coeffs - X ^ lsbVal [1, 0, 1] :=
  ⟨⟨by decide, by decide, by decide⟩,
    downgrade_mod_value.1 _ _ (by decide) (by decide) (by decide)⟩

/-- Counterexample to C3 as stated: the spec reads the bits most-significant
first, so for `M = x²` and bits `[1, 0]` the exponent would be 2 and the
result would have to be congruent to `x² ≡ 0 (mod M)`; the code instead
returns a representative of `x¹`, which is not congruent to `x²` mod `x²`. -/
theorem downgrade_mod_counterexample :
    msbVal [1, 0] = 2 ∧
      ∃ r, downgrade_mod (Poly.new [0, 0, 1] : Poly ℚ) [1, 0] = some r ∧
        ¬ (toPoly (Poly.new [0, 0, 1] : Poly ℚ).coeffs
            ∣ toPoly r.coeffs - X ^ msbVal [1, 0]) := by
  constructor
  · rfl
  · have hm : Trimmed (Poly.new [0, 0, 1] : Poly ℚ).coeffs := by decide
    have hrk : 1 ≤ (Poly.new [0, 0, 1] : Poly ℚ).rank := by decide
    rw [downgrade_mod_pos _ _ (by decide)]
    obtain ⟨r, hr, htrim, hrank, hdvd⟩ :=
      downgrade_mod_internal_spec (Poly.new [0, 0, 1] : Poly ℚ) _ hm hrk (by omega)
        (downgrade_inv_spec _ hm hrk) [1, 0]
    refine ⟨r, hr, ?_⟩
    intro hcon
    have hlsb : lsbVal [1, 0] = 1 := rfl
    rw [hlsb] at hdvd
    have hmsb : msbVal [1, 0] = 2 := rfl
    rw [hmsb] at hcon
    have hdiff : toPoly (Poly.new [0, 0, 1] : Poly ℚ).coeffs
        ∣ (X ^ 2 - X ^ 1 : Polynomial ℚ) := by
      have hd := dvd_sub hdvd hcon
      have heq : (toPoly r.coeffs - X ^ 1) - (toPoly r.coeffs - X ^ 2)
          = (X ^ 2 - X ^ 1 : Polynomial ℚ) := by ring
      rwa [heq] at hd
    have hM : toPoly (Poly.new [0, 0, 1] : Poly ℚ).coeffs = X ^ 2 := by
      rw [toPoly_new]
      simp [toPoly]
      ring
    rw [hM] at hdiff
    have hc1 := X_pow_dvd_iff.1 hdiff 1 (by omega)
    rw [Polynomial.coeff_sub, pow_one, Polynomial.coeff_X_pow, Polynomial.coeff_X_one] at hc1
    norm_num at hc1

theorem truncP_zero_left (p : Polynomial F) : truncP 0 p = 0 := rfl

theorem D_truncP (n : Nat) (p : Polynomial F) :
    derivative (truncP n p) = truncP (n - 1) (derivative p) := by
  apply Polynomial.ext
  intro i
  rw [Polynomial.coeff_derivative, coeff_truncP, coeff_truncP, Polynomial.coeff_derivative]
  by_cases hi : i + 1 < n
  · rw [if_pos hi, if_pos (by omega)]
  · rw [if_neg hi, if_neg (by omega), zero_mul]

theorem trimmed_modular (p : Poly F) (n : Nat) : Trimmed (p.modular n).coeffs :=
  trimmed_poly_trim _

theorem trimmed_zero_poly : Trimmed (zero (F := F)).coeffs :=
  trimmed_poly_trim _

theorem modular_zero (p : Poly F) : p.modular 0 = zero :=
  poly_eq_of_toPoly_eq (trimmed_modular p 0) trimmed_zero_poly
    (by rw [toPoly_modular, toPoly_zero_poly, truncP_zero_left])

theorem toPoly_addHead (c : F) {l : List F} (h : l ≠ []) :
    toPoly (match l with
      | [] => ([] : List F)
      | a :: t => (a + c) :: t) = toPoly l + C c := by
  match l with
  | a :: t =>
    simp only [toPoly]
    rw [map_add]
    ring

/-- Cancellation: a series with invertible constant term can be cancelled in
congruences modulo `x^k`. -/
theorem X_pow_dvd_cancel {f : Polynomial F} (hf : f.coeff 0 ≠ 0) :
    ∀ (k : Nat) (u : Polynomial F), X ^ k ∣ f * u → X ^ k ∣ u := by
  intro k
  induction k with
  | zero => intro u h; simp
  | succ k ih =>
    intro u h
    have hk : X ^ k ∣ u := ih u (dvd_trans (pow_dvd_pow X (Nat.le_succ k)) h)
    obtain ⟨v, rfl⟩ := hk
    obtain ⟨w, hw⟩ := h
    have hXk : (X : Polynomial F) ^ k ≠ 0 := pow_ne_zero _ Polynomial.X_ne_zero
    have hcan : f * v = X * w := by
      apply mul_left_cancel₀ hXk
      linear_combination hw
    have hv0 : v.coeff 0 = 0 := by
      have hx1 : (X : Polynomial F) ^ 1 ∣ f * v := by
        rw [pow_one, hcan]
        exact Dvd.intro w rfl
      have := X_pow_dvd_iff.1 hx1 0 (by omega)
      rw [Polynomial.mul_coeff_zero] at this
      exact (mul_eq_zero.1 this).resolve_left hf
    have hXv : X ∣ v := by
      have : (X : Polynomial F) ^ 1 ∣ v := X_pow_dvd_iff.2 (by
        intro d hd
        have hd0 : d = 0 := by omega
        rw [hd0]
        exact hv0)
      rwa [pow_one] at this
    obtain ⟨t, rfl⟩ := hXv
    exact ⟨t, by ring⟩

/-- In characteristic zero, two series with congruent derivatives and equal
constant terms are congruent one degree higher. -/
theorem cong_of_derivative_cong [CharZero F] {p q : Polynomial F} {n : Nat}
    (hd : X ^ (n - 1) ∣ derivative p - derivative q) (h0 : p.coeff 0 = q.coeff 0) :
    X ^ n ∣ p - q := by
  rw [X_pow_dvd_iff] at hd ⊢
  intro d hdn
  rw [Polynomial.coeff_sub]
  cases d with
  | zero =>
    rw [h0, sub_self]
  | succ i =>
    have hi := hd i (by omega)
    rw [Polynomial.coeff_sub, Polynomial.coeff_derivative, Polynomial.coeff_derivative] at hi
    have hfac : (p.coeff (i + 1) - q.coeff (i + 1)) * ((i : F) + 1) = 0 := by
      linear_combination hi
    have hne : ((i : F) + 1) ≠ 0 := by
      have h1 : ((i + 1 : Nat) : F) ≠ 0 := Nat.cast_ne_zero.2 (Nat.succ_ne_zero i)
      push_cast at h1
      exact h1
    exact (mul_eq_zero.1 hfac).resolve_right hne

/-- Uniqueness of truncated solutions of `y' ≡ y·a` with a fixed constant
term, characteristic zero. -/
theorem ode_unique [CharZero F] {y₁ y₂ a : Polynomial F} {n : Nat}
    (h1 : X ^ (n - 1) ∣ derivative y₁ - y₁ * a)
    (h2 : X ^ (n - 1) ∣ derivative y₂ - y₂ * a)
    (h0 : y₁.coeff 0 = y₂.coeff 0) :
    X ^ n ∣ y₁ - y₂ := by
  have hdvd : X ^ (n - 1) ∣ derivative (y₁ - y₂) - (y₁ - y₂) * a := by
    have hsplit : derivative (y₁ - y₂) - (y₁ - y₂) * a
        = (derivative y₁ - y₁ * a) - (derivative y₂ - y₂ * a) := by
      rw [derivative_sub]
      ring
    rw [hsplit]
    exact dvd_sub h1 h2
  -- show X^k ∣ y₁ - y₂ for every k ≤ n by induction on k
  have key : ∀ k : Nat, k ≤ n → X ^ k ∣ y₁ - y₂ := by
    intro k
    induction k with
    | zero => intro _; simp
    | succ k ih =>
      intro hkn
      have hk : X ^ k ∣ y₁ - y₂ := ih (by omega)
      obtain ⟨v, hv⟩ := hk
      rcases Nat.eq_zero_or_pos k with rfl | hkpos
      · -- k = 0 : use the constant terms
        refine X_pow_dvd_iff.2 ?_
        intro d hd
        have hd0 : d = 0 := by omega
        rw [hd0, Polynomial.coeff_sub, h0, sub_self]
      · -- k ≥ 1 : look at coefficient k-1 of the derivative
        have hcd : (derivative (y₁ - y₂)).coeff (k - 1) = (k : F) * v.coeff 0 := by
          rw [hv, Polynomial.coeff_derivative]
          have hXkv : ((X : Polynomial F) ^ k * v).coeff (k - 1 + 1) = v.coeff 0 := by
            have hk1 : k - 1 + 1 = 0 + k := by omega
            rw [hk1, Polynomial.coeff_X_pow_mul]
          rw [hXkv]
          have hcast : ((k - 1 : Nat) : F) + 1 = (k : F) := by
            have : ((k - 1 : Nat) : F) + 1 = ((k - 1 + 1 : Nat) : F) := by push_cast; ring
            rw [this]
            congr 1
            omega
          rw [hcast, mul_comm]
        have hca : ((y₁ - y₂) * a).coeff (k - 1) = 0 := by
          have : X ^ k ∣ (y₁ - y₂) * a := Dvd.dvd.mul_right ⟨v, hv⟩ a
          exact X_pow_dvd_iff.1 this (k - 1) (by omega)
        have hcoeff := X_pow_dvd_iff.1 hdvd (k - 1) (by omega)
        rw [Polynomial.coeff_sub, hca, sub_zero, hcd] at hcoeff
        have hkne : (k : F) ≠ 0 := Nat.cast_ne_zero.2 (by omega)
        have hv0 : v.coeff 0 = 0 := (mul_eq_zero.1 hcoeff).resolve_left hkne
        have hXv : X ∣ v := by
          have : (X : Polynomial F) ^ 1 ∣ v := X_pow_dvd_iff.2 (by
            intro d hd
            have hd0 : d = 0 := by omega
            rw [hd0]
            exact hv0)
          rwa [pow_one] at this
        obtain ⟨t, rfl⟩ := hXv
        exact ⟨t, by rw [hv]; ring⟩
  exact key n le_rfl

theorem trimmed_differential (p : Poly F) : Trimmed p.differential.coeffs :=
  trimmed_poly_trim _

theorem trimmed_integral (p : Poly F) : Trimmed p.integral.coeffs :=
  trimmed_poly_trim _

/-- `integral` only looks at the first `n - 1` input coefficients when the
result is truncated to `n` terms. -/
theorem truncP_integral_congr {n : Nat} {p q : Poly F}
    (h : truncP (n - 1) (toPoly p.coeffs) = truncP (n - 1) (toPoly q.coeffs)) :
    truncP n (toPoly p.integral.coeffs) = truncP n (toPoly q.integral.coeffs) := by
  apply Polynomial.ext
  intro i
  rw [coeff_truncP, coeff_truncP]
  by_cases hi : i < n
  · rw [if_pos hi, if_pos hi, coeff_integral, coeff_integral]
    by_cases h0 : i = 0
    · rw [if_pos h0, if_pos h0]
    · rw [if_neg h0, if_neg h0]
      have hcoeff := congrArg (fun r => Polynomial.coeff r (i - 1)) h
      simp only [coeff_truncP] at hcoeff
      rw [if_pos (by omega), if_pos (by omega)] at hcoeff
      rw [hcoeff]
  · rw [if_neg hi, if_neg hi]

/-- C8: `ln(n)` fails with the fatal `should_eq!` assertion exactly when the
constant term differs from the multiplicative identity; with constant term 1
it returns `integral(differential(self) * inverse(self, n))` truncated
mod `x^n`. -/
theorem ln_spec (p : Poly F) (n : Nat) :
    (p.ln n = none ↔ p.coeffs.getD 0 0 ≠ 1) ∧
      (p.coeffs.getD 0 0 = 1 →
        p.ln n = some ((p.differential * p.inverse n).integral.modular n)) := by
  constructor
  · constructor
    · intro h hc
      rw [ln, if_pos hc] at h
      exact absurd h (by simp)
    · intro h
      rw [ln, if_neg h]
  · intro hc
    rw [ln, if_pos hc]
    refine congrArg some ?_
    apply poly_eq_of_toPoly_eq (trimmed_modular _ _) (trimmed_modular _ _)
    rw [toPoly_modular, toPoly_modular]
    apply truncP_integral_congr
    rw [toPoly_modular, toPoly_mul, toPoly_mul, toPoly_modular, toPoly_differential]
    rw [truncP_truncP (by omega : n - 1 ≤ n)]
    apply truncP_eq_of_dvd
    have hfac : truncP n (derivative (toPoly p.coeffs)) * toPoly (p.inverse n).coeffs
        - derivative (toPoly p.coeffs) * toPoly (p.inverse n).coeffs
        = (truncP n (derivative (toPoly p.coeffs)) - derivative (toPoly p.coeffs))
            * toPoly (p.inverse n).coeffs := by ring
    rw [hfac]
    refine Dvd.dvd.mul_right ?_ _
    have hd := (dvd_neg).2 (dvd_sub_truncP n (derivative (toPoly p.coeffs)))
    rw [neg_sub] at hd
    exact dvd_trans (pow_dvd_pow X (by omega : n - 1 ≤ n)) hd

/-- Witness for C8 at `p = 1 + x` over `ℚ`, `n = 4`. -/
theorem ln_spec_witness :
    ((Poly.new [1, 1] : Poly ℚ).coeffs.getD 0 0 = 1) ∧
      (Poly.new [1, 1] : Poly ℚ).ln 4 =
        some (((Poly.new [1, 1] : Poly ℚ).differential
          * (Poly.new [1, 1] : Poly ℚ).inverse 4).integral.modular 4) :=
  ⟨by decide, (ln_spec (Poly.new [1, 1] : Poly ℚ) 4).2 (by decide)⟩

/-- C5: over a characteristic-zero field, `differential ∘ integral` is the
identity on (trimmed) polynomials, while `integral ∘ differential` is not:
`integral` always resets the constant term to the additive identity. -/
theorem differential_integral_round_trip [CharZero F] :
    (∀ p : Poly F, Trimmed p.coeffs → p.integral.differential = p) ∧
      (Poly.new [(1 : F)]).differential.integral ≠ Poly.new [1] := by
  constructor
  · intro p hp
    apply poly_eq_of_toPoly_eq (trimmed_differential _) hp
    rw [toPoly_differential, derivative_integral]
  · intro hcon
    have h0 := congrArg (fun q : Poly F => (toPoly q.coeffs).coeff 0) hcon
    simp only at h0
    rw [coeff_zero_integral, toPoly_new, coeff_toPoly] at h0
    simp at h0

/-- Witness for C5 at `p = 3 + 5x` over `ℚ`. -/
theorem differential_integral_round_trip_witness :
    Trimmed (Poly.new [3, 5] : Poly ℚ).coeffs ∧
      (Poly.new [3, 5] : Poly ℚ).integral.differential = Poly.new [3, 5] :=
  ⟨by decide, differential_integral_round_trip.1 (Poly.new [3, 5]) (by decide)⟩

/-- The characterization of `ln` used for the inverse laws: the result is a
truncated antiderivative, so its constant term vanishes and it solves
`f · L' ≡ f'` to precision `n - 1`. -/
theorem ln_char [CharZero F] (f : Poly F) (n : Nat) (hn : 1 ≤ n)
    (h0 : f.coeffs.getD 0 0 = 1) :
    ∃ L, f.ln n = some L ∧ Trimmed L.coeffs ∧
      (toPoly L.coeffs).coeff 0 = 0 ∧
      truncP n (toPoly L.coeffs) = toPoly L.coeffs ∧
      X ^ (n - 1) ∣ toPoly f.coeffs * derivative (toPoly L.coeffs)
        - derivative (toPoly f.coeffs) := by
  refine ⟨_, by rw [ln, if_pos h0], trimmed_modular _ _, ?_, ?_, ?_⟩
  · rw [toPoly_modular, coeff_truncP, if_pos (by omega : 0 < n), coeff_zero_integral]
  · rw [toPoly_modular, truncP_truncP le_rfl]
  · have hDL : derivative (toPoly ((((f.differential.modular n * f.inverse n).modular n).integral).modular n).coeffs)
        = truncP (n - 1) (truncP n (derivative (toPoly f.coeffs))
            * toPoly (f.inverse n).coeffs) := by
      rw [toPoly_modular, D_truncP, derivative_integral, toPoly_modular, toPoly_mul,
        toPoly_modular, toPoly_differential, truncP_truncP (by omega : n - 1 ≤ n)]
    have step1 : X ^ (n - 1) ∣
        derivative (toPoly ((((f.differential.modular n * f.inverse n).modular n).integral).modular n).coeffs)
          - derivative (toPoly f.coeffs) * toPoly (f.inverse n).coeffs := by
      have hsplit : derivative (toPoly ((((f.differential.modular n * f.inverse n).modular n).integral).modular n).coeffs)
            - derivative (toPoly f.coeffs) * toPoly (f.inverse n).coeffs
          = (truncP (n - 1) (truncP n (derivative (toPoly f.coeffs)) * toPoly (f.inverse n).coeffs)
              - truncP n (derivative (toPoly f.coeffs)) * toPoly (f.inverse n).coeffs)
            + (truncP n (derivative (toPoly f.coeffs)) - derivative (toPoly f.coeffs))
              * toPoly (f.inverse n).coeffs := by
        rw [hDL]
        ring
      rw [hsplit]
      refine dvd_add ?_ (Dvd.dvd.mul_right ?_ _)
      · have hd := (dvd_neg).2 (dvd_sub_truncP (n - 1)
          (truncP n (derivative (toPoly f.coeffs)) * toPoly (f.inverse n).coeffs))
        rwa [neg_sub] at hd
      · have hd := (dvd_neg).2 (dvd_sub_truncP n (derivative (toPoly f.coeffs)))
        rw [neg_sub] at hd
        exact dvd_trans (pow_dvd_pow X (by omega : n - 1 ≤ n)) hd
    have step2 : X ^ (n - 1) ∣ toPoly f.coeffs * toPoly (f.inverse n).coeffs - 1 := by
      refine dvd_trans (pow_dvd_pow X (by omega : n - 1 ≤ n)) ?_
      exact toPoly_inverse f n (by rw [h0]; exact one_ne_zero) hn
    have hfinal : toPoly f.coeffs
          * derivative (toPoly ((((f.differential.modular n * f.inverse n).modular n).integral).modular n).coeffs)
          - derivative (toPoly f.coeffs)
        = toPoly f.coeffs
            * (derivative (toPoly ((((f.differential.modular n * f.inverse n).modular n).integral).modular n).coeffs)
              - derivative (toPoly f.coeffs) * toPoly (f.inverse n).coeffs)
          + derivative (toPoly f.coeffs)
            * (toPoly f.coeffs * toPoly (f.inverse n).coeffs - 1) := by
      ring
    rw [hfinal]
    exact dvd_add (Dvd.dvd.mul_left step1 _) (Dvd.dvd.mul_left step2 _)

/-- The doubling step of `exp0` at the polynomial level: if `E2` solves the
exponential equation for `H` to half precision and `L` is its logarithm to
full precision, then `E2 · (H|_{k+2} - L + 1)` truncated solves it to full
precision. -/
theorem exp_step [CharZero F] {E L H : Polynomial F} (k : Nat)
    (hE20 : E.coeff 0 = 1) (hL0 : L.coeff 0 = 0) (hH0 : H.coeff 0 = 0)
    (hed2 : X ^ ((k + 2 + 1) / 2 - 1) ∣ derivative E - E * derivative H)
    (hLd : X ^ (k + 1) ∣ E * derivative L - derivative E) :
    (truncP (k + 2) (E * (truncP (k + 2) H - L + 1))).coeff 0 = 1 ∧
      X ^ (k + 1) ∣ derivative (truncP (k + 2) (E * (truncP (k + 2) H - L + 1)))
        - truncP (k + 2) (E * (truncP (k + 2) H - L + 1)) * derivative H := by
  have hhalf1 : 1 ≤ (k + 2 + 1) / 2 := by omega
  -- L agrees with H to half precision
  have hcancel : X ^ ((k + 2 + 1) / 2 - 1) ∣ derivative L - derivative H := by
    apply X_pow_dvd_cancel (f := E) (by rw [hE20]; exact one_ne_zero)
    have hsplit : E * (derivative L - derivative H)
        = (E * derivative L - derivative E)
          + (derivative E - E * derivative H) := by ring
    rw [hsplit]
    exact dvd_add (dvd_trans (pow_dvd_pow X (by omega)) hLd) hed2
  have hLH : X ^ ((k + 2 + 1) / 2) ∣ L - H :=
    cong_of_derivative_cong hcancel (by rw [hL0, hH0])
  have hδ : X ^ ((k + 2 + 1) / 2) ∣ truncP (k + 2) H - L := by
    have hsplit : truncP (k + 2) H - L = (truncP (k + 2) H - H) - (L - H) := by ring
    rw [hsplit]
    refine dvd_sub ?_ hLH
    have hd := (dvd_neg).2 (dvd_sub_truncP (k + 2) H)
    rw [neg_sub] at hd
    exact dvd_trans (pow_dvd_pow X (by omega)) hd
  constructor
  · rw [coeff_truncP, if_pos (by omega : 0 < k + 2), Polynomial.mul_coeff_zero, hE20,
      Polynomial.coeff_add, Polynomial.coeff_sub, coeff_truncP,
      if_pos (by omega : 0 < k + 2), hH0, hL0, Polynomial.coeff_one]
    norm_num
  · -- main congruence
    have hDW : derivative (E * (truncP (k + 2) H - L + 1))
        = derivative E * (truncP (k + 2) H - L + 1)
          + E * (truncP (k + 1) (derivative H) - derivative L) := by
      rw [derivative_mul, derivative_add, derivative_sub, derivative_one, D_truncP]
      norm_num
    have hT2 : X ^ (k + 1) ∣ derivative (E * (truncP (k + 2) H - L + 1))
        - (E * (truncP (k + 2) H - L + 1)) * derivative H := by
      have hid : derivative (E * (truncP (k + 2) H - L + 1))
          - (E * (truncP (k + 2) H - L + 1)) * derivative H
          = (truncP (k + 2) H - L) * (derivative E - E * derivative H)
            + E * (truncP (k + 1) (derivative H) - derivative H)
            - (E * derivative L - derivative E) := by
        rw [hDW]
        ring
      rw [hid]
      refine dvd_sub (dvd_add ?_ ?_) ?_
      · -- X^half · X^(half-1) covers X^(k+1)
        have hmul : X ^ ((k + 2 + 1) / 2) * X ^ ((k + 2 + 1) / 2 - 1)
            ∣ (truncP (k + 2) H - L) * (derivative E - E * derivative H) :=
          mul_dvd_mul hδ hed2
        rw [← pow_add] at hmul
        exact dvd_trans (pow_dvd_pow X (by omega)) hmul
      · refine Dvd.dvd.mul_left ?_ E
        have hd := (dvd_neg).2 (dvd_sub_truncP (k + 1) (derivative H))
        rwa [neg_sub] at hd
      · exact hLd
    have hid2 : derivative (truncP (k + 2) (E * (truncP (k + 2) H - L + 1)))
        - truncP (k + 2) (E * (truncP (k + 2) H - L + 1)) * derivative H
        = (truncP (k + 1) (derivative (E * (truncP (k + 2) H - L + 1)))
            - derivative (E * (truncP (k + 2) H - L + 1)))
          + (derivative (E * (truncP (k + 2) H - L + 1))
            - (E * (truncP (k + 2) H - L + 1)) * derivative H)
          + ((E * (truncP (k + 2) H - L + 1))
            - truncP (k + 2) (E * (truncP (k + 2) H - L + 1))) * derivative H := by
      rw [D_truncP]
      have hidx : k + 2 - 1 = k + 1 := rfl
      rw [hidx]
      ring
    rw [hid2]
    refine dvd_add (dvd_add ?_ hT2) ?_
    · have hd := (dvd_neg).2 (dvd_sub_truncP (k + 1)
        (derivative (E * (truncP (k + 2) H - L + 1))))
      rwa [neg_sub] at hd
    · refine Dvd.dvd.mul_right ?_ _
      exact dvd_trans (pow_dvd_pow X (by omega))
        (dvd_sub_truncP (k + 2) (E * (truncP (k + 2) H - L + 1)))

theorem exp0_two_eq (p : Poly F) (k : Nat) :
    p.exp0 (k + 2) = (p.exp0 ((k + 2 + 1) / 2)).bind fun ans =>
      (ans.ln (k + 2)).bind fun l =>
        some ((ans * (⟨match (p.modular (k + 2) - l).coeffs with
          | [] => ([] : List F)
          | a :: t => (a + 1) :: t⟩ : Poly F)).modular (k + 2)) := by
  rw [exp0]
  rfl

/-- The invariant of `exp0`: for a series with zero constant term and any
precision `n ≥ 1`, the recursion succeeds and returns the truncated solution
of the exponential differential equation `e' ≡ e · h'` with `e(0) = 1`. -/
theorem exp0_spec [CharZero F] (h : Poly F) (hh0 : h.coeffs.getD 0 0 = 0) :
    ∀ n : Nat, 1 ≤ n → ∃ e, h.exp0 n = some e ∧ Trimmed e.coeffs ∧
      (toPoly e.coeffs).coeff 0 = 1 ∧ truncP n (toPoly e.coeffs) = toPoly e.coeffs ∧
      X ^ (n - 1) ∣ derivative (toPoly e.coeffs)
        - toPoly e.coeffs * derivative (toPoly h.coeffs) := by
  intro n
  induction n using Nat.strong_induction_on with
  | _ n ih =>
    intro hn
    match n, hn with
    | 1, _ =>
      refine ⟨one, by rw [exp0], trimmed_one, ?_, ?_, ?_⟩
      · rw [toPoly_one_poly]
        simp
      · rw [toPoly_one_poly]
        exact truncP_one le_rfl
      · have h1 : (X : Polynomial F) ^ (1 - 1) = 1 := pow_zero X
        rw [h1]
        exact one_dvd _
    | (k + 2), _ =>
      have hhalf1 : 1 ≤ (k + 2 + 1) / 2 := by omega
      have hhalflt : (k + 2 + 1) / 2 < k + 2 := by omega
      obtain ⟨e2, he2, htr2, he20, hetr2, hed2⟩ := ih ((k + 2 + 1) / 2) hhalflt hhalf1
      have he2g : e2.coeffs.getD 0 0 = 1 := by
        rw [← coeff_zero_toPoly]
        exact he20
      obtain ⟨L, hL, htrL, hL0, hLtr, hLd⟩ := ln_char e2 (k + 2) (by omega) he2g
      rw [exp0_two_eq, he2, Option.some_bind, hL, Option.some_bind]
      have hD2 : toPoly (⟨match (h.modular (k + 2) - L).coeffs with
          | [] => ([] : List F)
          | a :: t => (a + 1) :: t⟩ : Poly F).coeffs
          = truncP (k + 2) (toPoly h.coeffs) - toPoly L.coeffs + 1 := by
      -- the head-increment is adding the constant 1
        rw [toPoly_addHead 1 (trimmed_ne_nil (trimmed_sub _ _)), toPoly_sub, toPoly_modular,
          Polynomial.C_1]
      have hh0c : (toPoly h.coeffs).coeff 0 = 0 := by
        rw [coeff_zero_toPoly]
        exact hh0
      have hstep := exp_step (E := toPoly e2.coeffs) (L := toPoly L.coeffs)
        (H := toPoly h.coeffs) k he20 hL0 hh0c
        (by
          have hidx : (k + 2 + 1) / 2 - 1 = (k + 2 + 1) / 2 - 1 := rfl
          exact hed2)
        (by
          have hidx : (k + 2) - 1 = k + 1 := rfl
          rw [← hidx]
          exact hLd)
      refine ⟨_, rfl, trimmed_modular _ _, ?_, ?_, ?_⟩
      · rw [toPoly_modular, toPoly_mul, hD2]
        exact hstep.1
      · rw [toPoly_modular, truncP_truncP le_rfl]
      · rw [toPoly_modular, toPoly_mul, hD2]
        have hidx : (k + 2) - 1 = k + 1 := rfl
        rw [hidx]
        exact hstep.2

/-- C4 (amended): over a characteristic-zero field, for every series `f`
with constant term 1 and every precision `n`,
`exp(ln(f, n), n) mod x^n = f mod x^n`; and for every `g` with zero constant
term and every precision `n ≥ 1`, `ln(exp(g, n), n) mod x^n = g mod x^n`
(at `n = 0` the second law aborts: `exp(g, 0)` is the zero polynomial and
`ln` then fails its assertion). -/
theorem exp_ln_inverse_laws [CharZero F] :
    (∀ (f : Poly F) (n : Nat), f.coeffs.getD 0 0 = 1 →
        ((f.ln n).bind (fun l => l.exp n)).map (fun e => e.modular n)
          = some (f.modular n)) ∧
      (∀ (g : Poly F) (n : Nat), g.coeffs.getD 0 0 = 0 → 1 ≤ n →
        ((g.exp n).bind (fun e => e.ln n)).map (fun l => l.modular n)
          = some (g.modular n)) := by
  constructor
  · intro f n h0
    by_cases hn : n = 0
    · subst hn
      rw [ln, if_pos h0, Option.some_bind, exp, if_pos rfl, Option.map_some']
      rw [modular_zero, modular_zero]
    · have hn1 : 1 ≤ n := by omega
      obtain ⟨L, hL, htrL, hL0, hLtr, hLd⟩ := ln_char f n hn1 h0
      rw [hL, Option.some_bind, exp, if_neg hn]
      have hLg : (L.modular n).coeffs.getD 0 0 = 0 := by
        rw [← coeff_zero_toPoly, toPoly_modular, coeff_truncP, if_pos (by omega : 0 < n)]
        exact hL0
      obtain ⟨e, he, htre, he0, hetr, hed⟩ := exp0_spec (L.modular n) hLg n hn1
      rw [he, Option.map_some']
      refine congrArg some ?_
      apply poly_eq_of_toPoly_eq (trimmed_modular _ _) (trimmed_modular _ _)
      rw [toPoly_modular, toPoly_modular]
      have hLmod : toPoly (L.modular n).coeffs = toPoly L.coeffs := by
        rw [toPoly_modular, hLtr]
      have hede : X ^ (n - 1) ∣ derivative (toPoly e.coeffs)
          - toPoly e.coeffs * derivative (toPoly L.coeffs) := by
        rw [← hLmod]
        exact hed
      have hfD : X ^ (n - 1) ∣ derivative (toPoly f.coeffs)
          - toPoly f.coeffs * derivative (toPoly L.coeffs) := by
        have hd := (dvd_neg).2 hLd
        rwa [neg_sub] at hd
      have hcong : X ^ n ∣ toPoly e.coeffs - toPoly f.coeffs :=
        ode_unique hede hfD (by rw [he0, coeff_zero_toPoly, h0])
      exact truncP_eq_of_dvd hcong
  · intro g n h0 hn1
    rw [exp, if_neg (by omega)]
    have hgg : (g.modular n).coeffs.getD 0 0 = 0 := by
      rw [← coeff_zero_toPoly, toPoly_modular, coeff_truncP, if_pos (by omega : 0 < n),
        coeff_zero_toPoly]
      exact h0
    obtain ⟨e, he, htre, he0, hetr, hed⟩ := exp0_spec (g.modular n) hgg n hn1
    rw [he, Option.some_bind]
    have heg : e.coeffs.getD 0 0 = 1 := by
      rw [← coeff_zero_toPoly]
      exact he0
    obtain ⟨L, hL, htrL, hL0, hLtr, hLd⟩ := ln_char e n hn1 heg
    rw [hL, Option.map_some']
    refine congrArg some ?_
    apply poly_eq_of_toPoly_eq (trimmed_modular _ _) (trimmed_modular _ _)
    rw [toPoly_modular, toPoly_modular]
    have hcan : X ^ (n - 1) ∣ derivative (toPoly L.coeffs)
        - derivative (toPoly (g.modular n).coeffs) := by
      apply X_pow_dvd_cancel (f := toPoly e.coeffs) (by rw [he0]; exact one_ne_zero)
      have hsplit : toPoly e.coeffs * (derivative (toPoly L.coeffs)
          - derivative (toPoly (g.modular n).coeffs))
          = (toPoly e.coeffs * derivative (toPoly L.coeffs) - derivative (toPoly e.coeffs))
            + (derivative (toPoly e.coeffs)
              - toPoly e.coeffs * derivative (toPoly (g.modular n).coeffs)) := by ring
      rw [hsplit]
      exact dvd_add hLd hed
    have hLg : X ^ n ∣ toPoly L.coeffs - toPoly (g.modular n).coeffs :=
      cong_of_derivative_cong hcan (by
        rw [hL0, toPoly_modular, coeff_truncP, if_pos (by omega : 0 < n),
          coeff_zero_toPoly, h0])
    have hfin := truncP_eq_of_dvd hLg
    rw [toPoly_modular, truncP_truncP le_rfl] at hfin
    exact hfin

/-- Witness for C4 (amended) at `f = 1 + x` over `ℚ`, `n = 3`. -/
theorem exp_ln_inverse_laws_witness :
    ((Poly.new [1, 1] : Poly ℚ).coeffs.getD 0 0 = 1) ∧
      (((Poly.new [1, 1] : Poly ℚ).ln 3).bind (fun l => l.exp 3)).map
          (fun e => e.modular 3)
        = some ((Poly.new [1, 1] : Poly ℚ).modular 3) :=
  ⟨by decide, exp_ln_inverse_laws.1 (Poly.new [1, 1]) 3 (by decide)⟩

/-- Counterexample to C4 as stated: at precision `n = 0` the second inverse
law fails for `g = 0` — `exp(g, 0)` is the zero polynomial, whose constant
term is not 1, so `ln` hits its fatal assertion (`none`) instead of
returning `g mod x^0`. -/
theorem exp_ln_counterexample :
    (zero : Poly ℚ).coeffs.getD 0 0 = 0 ∧
      (((zero : Poly ℚ).exp 0).bind (fun e => e.ln 0)).map (fun l => l.modular 0)
        = none ∧
      ¬ ((((zero : Poly ℚ).exp 0).bind (fun e => e.ln 0)).map (fun l => l.modular 0)
        = some ((zero : Poly ℚ).modular 0)) :=
  ⟨by decide, by decide, by decide⟩

/-- Witness for C9: a singleton slice over `ℚ` with fuel 1. -/
theorem batch_mul_spec_witness :
    ([Poly.new [2, 0, 1]] ≠ ([] : List (Poly ℚ))) ∧
      (∃ r, batch_mul 1 [(Poly.new [2, 0, 1] : Poly ℚ)] = some r ∧
        toPoly r.coeffs =
          ([(Poly.new [2, 0, 1] : Poly ℚ)].map (fun p => toPoly p.coeffs)).prod) :=
  ⟨by decide, batch_mul_spec.1 _ (by decide) 1 (by decide)⟩


end Poly

end RustPoly
